import Mathlib

/-!
Verification of the parallel multiway merge orchestration layer from
`tlx/algorithm/parallel_multiway_merge.hpp`.

The orchestration layer is embedded faithfully from the source: sequences are
lists, iterator-pair ranges `[first, second)` become the list contents, and
cursor advancement becomes dropping a prefix.  The collaborators that the
source delegates to (`multiway_merge_base` from `multiway_merge.hpp` and the
two splitting routines from `multiway_merge_splitting.hpp`) are not part of
the sources under verification, so they are modelled from the specification
of their contracts (sections 4.2, 6 of the design document).
-/

namespace Tlx

/-- A strict-weak-order predicate on a boolean comparator, the validity
assumption the design places on the caller-supplied comparator. -/
structure IsStrictWeakOrder {α : Type} (comp : α → α → Bool) : Prop where
  irrefl : ∀ a, comp a a = false
  asymm : ∀ a b, comp a b = true → comp b a = false
  negtrans : ∀ a b c, comp a b = false → comp b c = false → comp a c = false

/-- A list is sorted ascending under the comparator: no element is strictly
less than its predecessor. -/
@[reducible]
def sortedAsc {α : Type} (comp : α → α → Bool) (l : List α) : Prop :=
  List.Chain' (fun a b => comp b a = false) l

/-- The per-sequence head cursors of a merge state. -/
def heads {α : Type} (u : List (List α)) : List (Option α) :=
  u.map List.head?

/-- Select the first index holding a minimal element among a list of optional
heads; ties are broken toward the lower index (stable selection). -/
def pickMinAux {α : Type} (comp : α → α → Bool) : List (Option α) → Option (Nat × α)
  | [] => none
  | none :: rest => (pickMinAux comp rest).map (fun p => (p.1 + 1, p.2))
  | some a :: rest =>
    match pickMinAux comp rest with
    | none => some (0, a)
    | some (i, b) => if comp b a then some (i + 1, b) else some (0, a)

/-- Select the sequence whose head is minimal (lowest index on ties). -/
def pickMin {α : Type} (comp : α → α → Bool) (u : List (List α)) : Option (Nat × α) :=
  pickMinAux comp (heads u)

/-- Remove the head element of the j-th sequence of a merge state. -/
def popAt {α : Type} (u : List (List α)) (j : Nat) : List (List α) :=
  u.set j (u.getD j []).tail

/-- Total number of elements across all sequences of a state. -/
def totalLen {α : Type} (u : List (List α)) : Nat :=
  (u.map List.length).sum

/-- One K-way merge step: consume the minimal head, if any. -/
def stepMerge {α : Type} (comp : α → α → Bool) (u : List (List α)) : List (List α) :=
  match pickMin comp u with
  | none => u
  | some (j, _) => popAt u j

/-- The merge state after `r` K-way merge steps. -/
def stepN {α : Type} (comp : α → α → Bool) (u : List (List α)) : Nat → List (List α)
  | 0 => u
  | r + 1 => stepN comp (stepMerge comp u) r

/-- Number of elements consumed from sequence `s` during the first `r` K-way
merge steps. -/
def consumedCount {α : Type} (comp : α → α → Bool) (u : List (List α)) (r s : Nat) : Nat :=
  (u.getD s []).length - ((stepN comp u r).getD s []).length

/-- Fuelled K-way merge: repeatedly emit the minimal head, lowest sequence
index first on ties. -/
def kwayMergeFuel {α : Type} (comp : α → α → Bool) : Nat → List (List α) → List α
  | 0, _ => []
  | fuel + 1, u =>
    match pickMin comp u with
    | none => []
    | some (j, a) => a :: kwayMergeFuel comp fuel (popAt u j)

/-- The single-threaded stable K-way merge of a collection of sequences. -/
def kwayMerge {α : Type} (comp : α → α → Bool) (u : List (List α)) : List α :=
  kwayMergeFuel comp (totalLen u) u

/-- Truncate each sequence of a state to a prescribed number of kept
elements. -/
def truncTo {α : Type} (u : List (List α)) (keep : Nat → Nat) : List (List α) :=
  (List.range u.length).map (fun s => (u.getD s []).take (keep s))

/-- Modelled from the spec: the sequential merge algorithm selector of
`multiway_merge.hpp` (not among the sources); the design document treats it
as an opaque configuration value fixed for the duration of one call. -/
inductive MultiwayMergeAlgorithm : Type
  | MWMA_ALGORITHM_DEFAULT : MultiwayMergeAlgorithm
  | MWMA_ALGORITHM_OTHER : MultiwayMergeAlgorithm
deriving DecidableEq

/-- Different splitting strategies for sorting/merging: by sampling, exact. -/
inductive MultiwayMergeSplittingAlgorithm : Type
  | MWMSA_SAMPLING : MultiwayMergeSplittingAlgorithm
  | MWMSA_EXACT : MultiwayMergeSplittingAlgorithm
  | MWMSA_LAST : MultiwayMergeSplittingAlgorithm
deriving DecidableEq

/-- The default splitting strategy aliases exact splitting. -/
def MWMSA_DEFAULT : MultiwayMergeSplittingAlgorithm :=
  MultiwayMergeSplittingAlgorithm.MWMSA_EXACT

/-- Modelled from the spec: the sequential K-way merge collaborator
`multiway_merge_base` of `multiway_merge.hpp` (not among the sources).  Per
the contract it merges the row's sub-ranges, writing at most `limit`
elements, respecting the comparator with index-ordered tie-breaking. -/
def multiway_merge_base {α : Type} (stable : Bool) (mwma : MultiwayMergeAlgorithm)
    (comp : α → α → Bool) (row : List (List α)) (limit : Nat) : List α :=
  (kwayMerge comp row).take limit

/-- The global output rank at which worker `w`'s share of `n` output elements
begins, for `nt` workers: balanced within one element. -/
def splitRank (n nt w : Nat) : Nat :=
  w * n / nt

/-- Modelled from the spec: the exact splitting collaborator
`multiway_merge_exact_splitting` of `multiway_merge_splitting.hpp` (not among
the sources).  For every worker boundary it computes the precise rank-based
split offset in every input sequence, so that the chunk element counts sum to
`min (size, total)` and re-merging any worker's row reproduces the
corresponding segment of the stable global merge. -/
def multiway_merge_exact_splitting {α : Type} (stable : Bool) (comp : α → α → Bool)
    (seqs : List (List α)) (size total num_threads : Nat) :
    List (List (Nat × Nat)) :=
  (List.range num_threads).map (fun w =>
    (List.range seqs.length).map (fun s =>
      (consumedCount comp seqs (splitRank (min size total) num_threads w) s,
       consumedCount comp seqs (splitRank (min size total) num_threads (w + 1)) s)))

/-- Modelled from the spec: the sampling splitting collaborator
`multiway_merge_sampling_splitting` of `multiway_merge_splitting.hpp` (not
among the sources).  The spec only constrains it to produce a table with the
coverage and contiguity invariants; the model instantiates it with the exact
planner, a faithful instance of that contract. -/
def multiway_merge_sampling_splitting {α : Type} (stable : Bool) (comp : α → α → Bool)
    (seqs : List (List α)) (size total num_threads : Nat) :
    List (List (Nat × Nat)) :=
  multiway_merge_exact_splitting stable comp seqs size total num_threads

/-- Overwrite the slice of `buf` starting at `pos` with `xs`. -/
def writeAt {α : Type} (buf : List α) (pos : Nat) (xs : List α) : List α :=
  buf.take pos ++ xs ++ buf.drop (pos + xs.length)

/-- A worker's output offset: the sum over sequences of the distance from the
sequence start to the worker's chunk start (`chunks[w][s].first -
seqs_ne[s].first` in the source). -/
def targetPos (row : List (Nat × Nat)) : Nat :=
  (row.map Prod.fst).sum

/-- A worker's nominal output length: the sum of its chunk lengths
(`chunks[w][s].second - chunks[w][s].first` in the source). -/
def localSizeOf (row : List (Nat × Nat)) : Nat :=
  (row.map (fun p => p.2 - p.1)).sum

/-- The sub-ranges of the non-empty sequences assigned to one worker by its
row of chunk offsets. -/
def chunkRow {α : Type} (seqs : List (List α)) (row : List (Nat × Nat)) : List (List α) :=
  (List.range seqs.length).map (fun s =>
    ((seqs.getD s []).drop (row.getD s (0, 0)).1).take
      ((row.getD s (0, 0)).2 - (row.getD s (0, 0)).1))

/-- The length a worker passes to the sequential merge:
`std::min(local_size, size - target_position)` in signed arithmetic. -/
def workerLen (size : Nat) (row : List (Nat × Nat)) : Int :=
  min (localSizeOf row : Int) ((size : Int) - (targetPos row : Int))

/-- The thread-count clamp of the source:
`if ((DiffType)num_threads > total_size) num_threads = total_size`. -/
def clampThreads (num_threads total_size : Nat) : Nat :=
  if total_size < num_threads then total_size else num_threads

/-- The non-empty input sequences, in order (the `seqs_ne` vector of the
source). -/
def filterNe {α : Type} (seqs : List (List α)) : List (List α) :=
  seqs.filter (fun l => !l.isEmpty)

/-- The reconciliation loop of the source: walk the original sequences and
advance each non-empty one to the `second` offset of the last worker's chunk,
counting only non-empty sequences. -/
def reconcileSeqs {α : Type} (lastRow : List (Nat × Nat)) :
    List (List α) → Nat → List (List α)
  | [], _ => []
  | l :: rest, cnt =>
    if l.isEmpty then l :: reconcileSeqs lastRow rest cnt
    else l.drop (lastRow.getD cnt (0, 0)).2 :: reconcileSeqs lastRow rest (cnt + 1)

/-- The observable outcome of one merge call: the final contents of the
target buffer, the advanced input sequences, and the returned iterator as an
offset from `target`. -/
structure MergeResult (α : Type) : Type where
  buffer : List α
  seqs : List (List α)
  ret : Nat
deriving DecidableEq

/-- Embedding of `parallel_multiway_merge_base` (lines 74-192 of the source).
Returns `none` exactly when the reconciler would index `chunks[num_threads-1]`
out of bounds, which happens when the clamped thread count is zero. -/
def parallel_multiway_merge_base {α : Type} (stable : Bool) (comp : α → α → Bool)
    (seqs : List (List α)) (target : List α) (size : Nat)
    (mwma : MultiwayMergeAlgorithm) (mwmsa : MultiwayMergeSplittingAlgorithm)
    (num_threads : Nat) : Option (MergeResult α) :=
  let seqs_ne := filterNe seqs
  let total_size := totalLen seqs_ne
  let num_seqs := seqs_ne.length
  if total_size = 0 ∨ num_seqs = 0 then
    some ⟨target, seqs, 0⟩
  else
    let nt := clampThreads num_threads total_size
    if nt = 0 then
      none
    else
      let chunks :=
        if mwmsa = MultiwayMergeSplittingAlgorithm.MWMSA_SAMPLING then
          multiway_merge_sampling_splitting stable comp seqs_ne size total_size nt
        else
          multiway_merge_exact_splitting stable comp seqs_ne size total_size nt
      let buffer := (List.range nt).foldl
        (fun b w =>
          let row := chunks.getD w []
          writeAt b (targetPos row)
            (multiway_merge_base stable mwma comp (chunkRow seqs_ne row)
              (workerLen size row).toNat))
        target
      some ⟨buffer, reconcileSeqs (chunks.getD (nt - 1) []) seqs 0, size⟩

/-- Embedding of the non-stable frontend `parallel_multiway_merge`
(lines 222-237 of the source). -/
def parallel_multiway_merge {α : Type} (comp : α → α → Bool)
    (seqs : List (List α)) (target : List α) (size : Nat)
    (mwma : MultiwayMergeAlgorithm) (mwmsa : MultiwayMergeSplittingAlgorithm)
    (num_threads : Nat) : Option (MergeResult α) :=
  parallel_multiway_merge_base false comp seqs target size mwma mwmsa num_threads

/-- Embedding of the stable frontend `stable_parallel_multiway_merge`
(lines 264-279 of the source). -/
def stable_parallel_multiway_merge {α : Type} (comp : α → α → Bool)
    (seqs : List (List α)) (target : List α) (size : Nat)
    (mwma : MultiwayMergeAlgorithm) (mwmsa : MultiwayMergeSplittingAlgorithm)
    (num_threads : Nat) : Option (MergeResult α) :=
  parallel_multiway_merge_base true comp seqs target size mwma mwmsa num_threads

/-- Tag every element of every sequence with its sequence index, starting the
count at `i`; used to track provenance of output elements. -/
def tagFrom {α : Type} : List (List α) → Nat → List (List (α × Nat))
  | [], _ => []
  | l :: rest, i => l.map (fun x => (x, i)) :: tagFrom rest (i + 1)

/-- Tag every element with the index of its input sequence. -/
def tagSeqs {α : Type} (seqs : List (List α)) : List (List (α × Nat)) :=
  tagFrom seqs 0

/-- Lift a comparator on keys to tagged elements, comparing keys only. -/
def liftComp {α : Type} (comp : α → α → Bool) : α × Nat → α × Nat → Bool :=
  fun p q => comp p.1 q.1

/-- Number of elements contributed by input sequence `s` to the first `n`
elements of the single-threaded merged output, determined by provenance
tags. -/
def contributedCount {α : Type} (comp : α → α → Bool) (seqs : List (List α))
    (n s : Nat) : Nat :=
  ((kwayMerge (liftComp comp) (tagSeqs seqs)).take n).countP
    (fun p => decide (p.2 = s))

/-- The index of sequence `s` within the filtered non-empty collection: the
number of non-empty sequences strictly before it. -/
def neIdx {α : Type} (seqs : List (List α)) (s : Nat) : Nat :=
  (filterNe (seqs.take s)).length

/-! ### Generic list index helpers -/

theorem getD_map {α β : Type} (f : α → β) (d : α) :
    ∀ (l : List α) (i : Nat), (l.map f).getD i (f d) = f (l.getD i d) := by
  intro l
  induction l with
  | nil => intro i; simp
  | cons h t ih =>
    intro i
    cases i with
    | zero => simp
    | succ i => simpa using ih i

theorem getD_of_length_le {α : Type} (d : α) :
    ∀ (l : List α) (i : Nat), l.length ≤ i → l.getD i d = d := by
  intro l
  induction l with
  | nil => intro i _; simp
  | cons h t ih =>
    intro i hi
    cases i with
    | zero => simp at hi
    | succ i => simpa using ih i (by simpa using hi)

theorem getD_range_map {α : Type} (f : Nat → α) (d : α) (n i : Nat) :
    ((List.range n).map f).getD i d = if i < n then f i else d := by
  by_cases h : i < n
  · rw [if_pos h]
    rw [List.getD_eq_getElem?_getD]
    rw [List.getElem?_eq_getElem (by simpa using h)]
    simp
  · rw [if_neg h]
    exact getD_of_length_le d _ i (by simpa using Nat.le_of_not_lt h)

theorem getD_set_eq {α : Type} (d a : α) :
    ∀ (l : List α) (j : Nat),
      (l.set j a).getD j d = if j < l.length then a else d := by
  intro l
  induction l with
  | nil => intro j; simp
  | cons h t ih =>
    intro j
    cases j with
    | zero => simp
    | succ j => simpa using ih j

theorem getD_set_ne {α : Type} (d a : α) :
    ∀ (l : List α) (i j : Nat), i ≠ j → (l.set i a).getD j d = l.getD j d := by
  intro l
  induction l with
  | nil => intro i j _; simp
  | cons h t ih =>
    intro i j hij
    cases i with
    | zero =>
      cases j with
      | zero => exact absurd rfl hij
      | succ j => simp
    | succ i =>
      cases j with
      | zero => simp
      | succ j => simpa using ih i j (by omega)

theorem listExtGetD {α : Type} (d : α) :
    ∀ (l₁ l₂ : List α), l₁.length = l₂.length →
      (∀ i, l₁.getD i d = l₂.getD i d) → l₁ = l₂ := by
  intro l₁
  induction l₁ with
  | nil =>
    intro l₂ hl _
    cases l₂ with
    | nil => rfl
    | cons h t => simp at hl
  | cons h t ih =>
    intro l₂ hl hget
    cases l₂ with
    | nil => simp at hl
    | cons h' t' =>
      have h0 := hget 0
      simp at h0
      have := ih t' (by simpa using hl) (fun i => by simpa using hget (i + 1))
      rw [h0, this]

/-! ### Selection lemmas for `pickMinAux` -/

theorem pickMinAux_eq_none_iff {α : Type} (comp : α → α → Bool) :
    ∀ hs : List (Option α), pickMinAux comp hs = none ↔ ∀ o ∈ hs, o = none := by
  intro hs
  induction hs with
  | nil => simp [pickMinAux]
  | cons h t ih =>
    cases h with
    | none => simp [pickMinAux, Option.map_eq_none', ih]
    | some a =>
      simp only [pickMinAux]
      cases ht : pickMinAux comp t with
      | none => simp
      | some p =>
        obtain ⟨i, b⟩ := p
        by_cases hc : comp b a <;> simp [hc]

theorem pickMinAux_getD {α : Type} (comp : α → α → Bool) :
    ∀ (hs : List (Option α)) (j : Nat) (a : α),
      pickMinAux comp hs = some (j, a) → hs.getD j none = some a := by
  intro hs
  induction hs with
  | nil => intro j a h; simp [pickMinAux] at h
  | cons h t ih =>
    intro j a hp
    cases h with
    | none =>
      cases ht : pickMinAux comp t with
      | none => simp [pickMinAux, ht] at hp
      | some p =>
        obtain ⟨k, b⟩ := p
        simp only [pickMinAux, ht, Option.map_some'] at hp
        obtain ⟨h1, h2⟩ : k + 1 = j ∧ b = a := by simpa using hp
        subst h1
        rw [← h2]
        simpa using ih k b ht
    | some b =>
      cases ht : pickMinAux comp t with
      | none =>
        simp only [pickMinAux, ht] at hp
        obtain ⟨h1, h2⟩ : 0 = j ∧ b = a := by simpa using hp
        subst h1
        simp [← h2]
      | some p =>
        obtain ⟨k, c⟩ := p
        by_cases hc : comp c b
        · simp only [pickMinAux, ht, hc, if_true] at hp
          obtain ⟨h1, h2⟩ : k + 1 = j ∧ c = a := by simpa using hp
          subst h1
          rw [← h2]
          simpa using ih k c ht
        · simp only [pickMinAux, ht, hc, if_false] at hp
          obtain ⟨h1, h2⟩ : 0 = j ∧ b = a := by simpa using hp
          subst h1
          simp [← h2]

theorem pickMinAux_beats_earlier {α : Type} (comp : α → α → Bool) :
    ∀ (hs : List (Option α)) (j : Nat) (a : α),
      pickMinAux comp hs = some (j, a) →
      ∀ i, i < j → ∀ x, hs.getD i none = some x → comp a x = true := by
  intro hs
  induction hs with
  | nil => intro j a h; simp [pickMinAux] at h
  | cons h t ih =>
    intro j a hp i hij x hx
    cases h with
    | none =>
      cases ht : pickMinAux comp t with
      | none => simp [pickMinAux, ht] at hp
      | some p =>
        obtain ⟨k, b⟩ := p
        simp only [pickMinAux, ht, Option.map_some'] at hp
        obtain ⟨h1, h2⟩ : k + 1 = j ∧ b = a := by simpa using hp
        subst h1
        rw [← h2]
        cases i with
        | zero => simp at hx
        | succ i => exact ih k b ht i (by omega) x (by simpa using hx)
    | some b =>
      cases ht : pickMinAux comp t with
      | none =>
        simp only [pickMinAux, ht] at hp
        obtain ⟨h1, h2⟩ : 0 = j ∧ b = a := by simpa using hp
        omega
      | some p =>
        obtain ⟨k, c⟩ := p
        by_cases hc : comp c b
        · simp only [pickMinAux, ht, hc, if_true] at hp
          obtain ⟨h1, h2⟩ : k + 1 = j ∧ c = a := by simpa using hp
          subst h1
          rw [← h2]
          cases i with
          | zero =>
            have hbx : some b = some x := by simpa using hx
            injection hbx with hbx
            subst hbx
            exact hc
          | succ i => exact ih k c ht i (by omega) x (by simpa using hx)
        · simp only [pickMinAux, ht, hc, if_false] at hp
          obtain ⟨h1, h2⟩ : 0 = j ∧ b = a := by simpa using hp
          omega

theorem pickMinAux_min {α : Type} {comp : α → α → Bool}
    (hswo : IsStrictWeakOrder comp) :
    ∀ (hs : List (Option α)) (j : Nat) (a : α),
      pickMinAux comp hs = some (j, a) →
      ∀ i x, hs.getD i none = some x → comp x a = false := by
  intro hs
  induction hs with
  | nil => intro j a h; simp [pickMinAux] at h
  | cons h t ih =>
    intro j a hp i x hx
    cases h with
    | none =>
      cases ht : pickMinAux comp t with
      | none => simp [pickMinAux, ht] at hp
      | some p =>
        obtain ⟨k, b⟩ := p
        simp only [pickMinAux, ht, Option.map_some'] at hp
        obtain ⟨h1, h2⟩ : k + 1 = j ∧ b = a := by simpa using hp
        subst h1
        rw [← h2]
        cases i with
        | zero => simp at hx
        | succ i => exact ih k b ht i x (by simpa using hx)
    | some b =>
      cases ht : pickMinAux comp t with
      | none =>
        simp only [pickMinAux, ht] at hp
        obtain ⟨h1, h2⟩ : 0 = j ∧ b = a := by simpa using hp
        subst h1
        rw [← h2]
        cases i with
        | zero =>
          have hbx : some b = some x := by simpa using hx
          injection hbx with hbx
          subst hbx
          exact hswo.irrefl b
        | succ i =>
          have hall := (pickMinAux_eq_none_iff comp t).mp ht
          have hti : t.getD i none = some x := by simpa using hx
          by_cases hlen : t.length ≤ i
          · rw [getD_of_length_le _ _ _ hlen] at hti; simp at hti
          · have hmem : t.getD i none ∈ t := by
              rw [List.getD_eq_getElem?_getD]
              rw [List.getElem?_eq_getElem (by omega)]
              exact List.getElem_mem _
            rw [hti] at hmem
            have := hall _ hmem
            simp at this
      | some p =>
        obtain ⟨k, c⟩ := p
        by_cases hc : comp c b
        · simp only [pickMinAux, ht, hc, if_true] at hp
          obtain ⟨h1, h2⟩ : k + 1 = j ∧ c = a := by simpa using hp
          subst h1
          rw [← h2]
          cases i with
          | zero =>
            have hbx : some b = some x := by simpa using hx
            injection hbx with hbx
            subst hbx
            exact hswo.asymm _ _ hc
          | succ i => exact ih k c ht i x (by simpa using hx)
        · simp only [pickMinAux, ht, hc, if_false] at hp
          obtain ⟨h1, h2⟩ : 0 = j ∧ b = a := by simpa using hp
          subst h1
          rw [← h2]
          cases i with
          | zero =>
            have hbx : some b = some x := by simpa using hx
            injection hbx with hbx
            subst hbx
            exact hswo.irrefl b
          | succ i =>
            have hxc := ih k c ht i x (by simpa using hx)
            have hcb : comp c b = false := by simpa [Bool.not_eq_true] using hc
            exact hswo.negtrans x c b hxc hcb

/-! ### Merge state lemmas -/

theorem heads_getD {α : Type} (u : List (List α)) (i : Nat) :
    (heads u).getD i none = (u.getD i []).head? := by
  simpa [heads] using getD_map List.head? ([] : List α) u i

theorem pickMin_head {α : Type} {comp : α → α → Bool} {u : List (List α)}
    {j : Nat} {a : α} (h : pickMin comp u = some (j, a)) :
    (u.getD j []).head? = some a := by
  have := pickMinAux_getD comp (heads u) j a h
  rwa [heads_getD] at this

theorem pickMin_lt_length {α : Type} {comp : α → α → Bool} {u : List (List α)}
    {j : Nat} {a : α} (h : pickMin comp u = some (j, a)) : j < u.length := by
  by_contra hge
  have hj := pickMin_head h
  rw [getD_of_length_le _ _ _ (Nat.le_of_not_lt hge)] at hj
  simp at hj

theorem pickMin_getD_ne_nil {α : Type} {comp : α → α → Bool} {u : List (List α)}
    {j : Nat} {a : α} (h : pickMin comp u = some (j, a)) : u.getD j [] ≠ [] := by
  intro hnil
  have hj := pickMin_head h
  rw [hnil] at hj
  simp at hj

theorem length_popAt {α : Type} (u : List (List α)) (j : Nat) :
    (popAt u j).length = u.length := by
  simp [popAt]

theorem popAt_getD_ne {α : Type} (u : List (List α)) {s j : Nat} (h : s ≠ j) :
    (popAt u j).getD s [] = u.getD s [] :=
  getD_set_ne _ _ u j s (fun hh => h hh.symm)

theorem popAt_getD_self {α : Type} (u : List (List α)) (j : Nat) :
    (popAt u j).getD j [] = (u.getD j []).tail := by
  rcases Nat.lt_or_ge j u.length with h | h
  · rw [popAt, getD_set_eq, if_pos h]
  · rw [popAt, getD_set_eq, if_neg (by omega), getD_of_length_le _ _ _ h]
    rfl

theorem popAt_getD_subset {α : Type} {u : List (List α)} {j s : Nat} {y : α}
    (hy : y ∈ (popAt u j).getD s []) : y ∈ u.getD s [] := by
  by_cases h : s = j
  · subst h
    rw [popAt_getD_self] at hy
    exact List.mem_of_mem_tail hy
  · rwa [popAt_getD_ne u h] at hy

theorem totalLen_cons {α : Type} (l : List α) (u : List (List α)) :
    totalLen (l :: u) = l.length + totalLen u := by
  simp [totalLen]

theorem totalLen_eq_zero_iff {α : Type} (u : List (List α)) :
    totalLen u = 0 ↔ ∀ l ∈ u, l = [] := by
  induction u with
  | nil => simp [totalLen]
  | cons l u ih =>
    rw [totalLen_cons]
    simp only [List.mem_cons]
    constructor
    · intro h
      have h1 : l.length = 0 := by omega
      have h2 : totalLen u = 0 := by omega
      intro x hx
      rcases hx with rfl | hx
      · exact List.length_eq_zero.mp h1
      · exact ih.mp h2 x hx
    · intro h
      have h1 : l = [] := h l (Or.inl rfl)
      have h2 : totalLen u = 0 := ih.mpr (fun x hx => h x (Or.inr hx))
      simp [h1, h2]

theorem totalLen_popAt {α : Type} :
    ∀ (u : List (List α)) (j : Nat), u.getD j [] ≠ [] →
      totalLen (popAt u j) + 1 = totalLen u := by
  intro u
  induction u with
  | nil => intro j h; simp at h
  | cons l u ih =>
    intro j h
    cases j with
    | zero =>
      simp only [List.getD_cons_zero] at h
      cases l with
      | nil => exact absurd rfl h
      | cons x xs =>
        simp only [popAt, List.getD_cons_zero, List.set]
        rw [totalLen_cons, totalLen_cons]
        simp
        omega
    | succ j =>
      simp only [List.getD_cons_succ] at h
      have : popAt (l :: u) (j + 1) = l :: popAt u j := by
        simp [popAt, List.set]
      rw [this, totalLen_cons, totalLen_cons]
      have := ih j h
      omega

theorem pickMin_eq_none_iff {α : Type} (comp : α → α → Bool) (u : List (List α)) :
    pickMin comp u = none ↔ totalLen u = 0 := by
  rw [pickMin, pickMinAux_eq_none_iff, totalLen_eq_zero_iff]
  constructor
  · intro h l hl
    have := h (l.head?) (List.mem_map_of_mem List.head? hl)
    exact List.head?_eq_none_iff.mp this
  · intro h o ho
    obtain ⟨l, hl, rfl⟩ := List.mem_map.mp ho
    rw [h l hl]
    rfl

theorem stepMerge_none {α : Type} {comp : α → α → Bool} {u : List (List α)}
    (h : pickMin comp u = none) : stepMerge comp u = u := by
  simp [stepMerge, h]

theorem stepMerge_some {α : Type} {comp : α → α → Bool} {u : List (List α)}
    {j : Nat} {a : α} (h : pickMin comp u = some (j, a)) :
    stepMerge comp u = popAt u j := by
  simp [stepMerge, h]

theorem length_stepMerge {α : Type} (comp : α → α → Bool) (u : List (List α)) :
    (stepMerge comp u).length = u.length := by
  rw [stepMerge]
  cases h : pickMin comp u with
  | none => rfl
  | some p => obtain ⟨j, a⟩ := p; exact length_popAt u j

theorem stepN_succ {α : Type} (comp : α → α → Bool) (u : List (List α)) (r : Nat) :
    stepN comp u (r + 1) = stepN comp (stepMerge comp u) r := rfl

theorem length_stepN {α : Type} (comp : α → α → Bool) :
    ∀ (r : Nat) (u : List (List α)), (stepN comp u r).length = u.length := by
  intro r
  induction r with
  | zero => intro u; rfl
  | succ r ih =>
    intro u
    rw [stepN_succ, ih, length_stepMerge]

theorem stepN_add {α : Type} (comp : α → α → Bool) :
    ∀ (a : Nat) (u : List (List α)) (b : Nat),
      stepN comp u (a + b) = stepN comp (stepN comp u a) b := by
  intro a
  induction a with
  | zero => intro u b; rw [Nat.zero_add]; rfl
  | succ a ih =>
    intro u b
    have h1 : a + 1 + b = (a + b) + 1 := by omega
    rw [h1, stepN_succ, stepN_succ, ih]

theorem stepN_getD_suffix {α : Type} (comp : α → α → Bool) :
    ∀ (r : Nat) (u : List (List α)) (s : Nat),
      (stepN comp u r).getD s [] <:+ u.getD s [] := by
  intro r
  induction r with
  | zero => intro u s; exact List.suffix_refl _
  | succ r ih =>
    intro u s
    rw [stepN_succ]
    refine (ih (stepMerge comp u) s).trans ?_
    rw [stepMerge]
    cases h : pickMin comp u with
    | none => exact List.suffix_refl _
    | some p =>
      obtain ⟨j, a⟩ := p
      by_cases hs : s = j
      · subst hs
        rw [popAt_getD_self]
        exact List.tail_suffix _
      · rw [popAt_getD_ne u hs]

theorem suffix_eq_drop {α : Type} {l' l : List α} (h : l' <:+ l) :
    l' = l.drop (l.length - l'.length) := by
  obtain ⟨t, rfl⟩ := h
  have hl : (t ++ l').length - l'.length = t.length := by simp
  rw [hl]
  exact (List.drop_left t l').symm

theorem stepN_getD_eq_drop {α : Type} (comp : α → α → Bool)
    (u : List (List α)) (r s : Nat) :
    (stepN comp u r).getD s [] = (u.getD s []).drop (consumedCount comp u r s) :=
  suffix_eq_drop (stepN_getD_suffix comp r u s)

theorem consumedCount_zero {α : Type} (comp : α → α → Bool) (u : List (List α)) (s : Nat) :
    consumedCount comp u 0 s = 0 := by
  simp [consumedCount, stepN]

theorem consumedCount_le_length {α : Type} (comp : α → α → Bool)
    (u : List (List α)) (r s : Nat) :
    consumedCount comp u r s ≤ (u.getD s []).length := by
  simp [consumedCount]

theorem consumedCount_add {α : Type} (comp : α → α → Bool)
    (u : List (List α)) (a b s : Nat) :
    consumedCount comp u (a + b) s
      = consumedCount comp u a s + consumedCount comp (stepN comp u a) b s := by
  have hsuf1 := (stepN_getD_suffix comp a u s).length_le
  have hsuf2 := (stepN_getD_suffix comp b (stepN comp u a) s).length_le
  simp only [consumedCount, stepN_add]
  omega

theorem consumedCount_mono {α : Type} (comp : α → α → Bool)
    (u : List (List α)) {a b : Nat} (h : a ≤ b) (s : Nat) :
    consumedCount comp u a s ≤ consumedCount comp u b s := by
  have : b = a + (b - a) := by omega
  rw [this, consumedCount_add]
  omega

theorem stepN_total_zero {α : Type} (comp : α → α → Bool) :
    ∀ (r : Nat) (u : List (List α)), totalLen u = 0 → stepN comp u r = u := by
  intro r
  induction r with
  | zero => intro u _; rfl
  | succ r ih =>
    intro u h
    rw [stepN_succ, stepMerge_none ((pickMin_eq_none_iff comp u).mpr h), ih u h]

theorem totalLen_stepN_of_le {α : Type} (comp : α → α → Bool) :
    ∀ (r : Nat) (u : List (List α)), r ≤ totalLen u →
      totalLen (stepN comp u r) = totalLen u - r := by
  intro r
  induction r with
  | zero => intro u _; rfl
  | succ r ih =>
    intro u h
    have htot : totalLen u ≠ 0 := by omega
    have hpick : pickMin comp u ≠ none := by
      rw [Ne, pickMin_eq_none_iff]; exact htot
    cases hp : pickMin comp u with
    | none => exact absurd hp hpick
    | some p =>
      obtain ⟨j, a⟩ := p
      have hpop := totalLen_popAt u j (pickMin_getD_ne_nil hp)
      rw [stepN_succ, stepMerge_some hp, ih (popAt u j) (by omega)]
      omega

theorem totalLen_stepN_of_ge {α : Type} (comp : α → α → Bool)
    (r : Nat) (u : List (List α)) (h : totalLen u ≤ r) :
    totalLen (stepN comp u r) = 0 := by
  have hr : r = totalLen u + (r - totalLen u) := by omega
  rw [hr, stepN_add]
  rw [stepN_total_zero comp _ _ (by rw [totalLen_stepN_of_le comp _ u (Nat.le_refl _)]; omega)]
  rw [totalLen_stepN_of_le comp _ u (Nat.le_refl _)]
  omega

/-! ### K-way merge lemmas -/

theorem kwayMergeFuel_eq {α : Type} (comp : α → α → Bool) :
    ∀ (fuel : Nat) (u : List (List α)), totalLen u ≤ fuel →
      kwayMergeFuel comp fuel u = kwayMerge comp u := by
  intro fuel
  induction fuel with
  | zero =>
    intro u h
    have h0 : totalLen u = 0 := by omega
    rw [kwayMerge, h0]
  | succ fuel ih =>
    intro u h
    rw [kwayMerge]
    cases htot : totalLen u with
    | zero =>
      have hp := (pickMin_eq_none_iff comp u).mpr htot
      simp [kwayMergeFuel, hp]
    | succ n =>
      cases hp : pickMin comp u with
      | none =>
        rw [pickMin_eq_none_iff comp u] at hp
        omega
      | some p =>
        obtain ⟨j, a⟩ := p
        have hpop := totalLen_popAt u j (pickMin_getD_ne_nil hp)
        have hn : totalLen (popAt u j) = n := by omega
        simp only [kwayMergeFuel, hp]
        rw [ih (popAt u j) (by omega), ← hn]
        rfl

theorem kwayMerge_eq_nil {α : Type} {comp : α → α → Bool} {u : List (List α)}
    (h : pickMin comp u = none) : kwayMerge comp u = [] := by
  rw [kwayMerge]
  cases htot : totalLen u with
  | zero => rfl
  | succ n => simp [kwayMergeFuel, h]

theorem kwayMerge_eq_cons {α : Type} {comp : α → α → Bool} {u : List (List α)}
    {j : Nat} {a : α} (h : pickMin comp u = some (j, a)) :
    kwayMerge comp u = a :: kwayMerge comp (popAt u j) := by
  have hpop := totalLen_popAt u j (pickMin_getD_ne_nil h)
  rw [kwayMerge]
  cases htot : totalLen u with
  | zero =>
    have h0 := (pickMin_eq_none_iff comp u).mpr htot
    rw [h0] at h
    simp at h
  | succ n =>
    simp only [kwayMergeFuel, h]
    rw [kwayMergeFuel_eq comp n (popAt u j) (by omega)]

theorem length_kwayMerge {α : Type} (comp : α → α → Bool) (u : List (List α)) :
    (kwayMerge comp u).length = totalLen u := by
  suffices h : ∀ (fuel : Nat) (u : List (List α)), totalLen u ≤ fuel →
      (kwayMerge comp u).length = totalLen u by
    exact h (totalLen u) u (Nat.le_refl _)
  intro fuel
  induction fuel with
  | zero =>
    intro u h
    have h0 : totalLen u = 0 := by omega
    rw [kwayMerge, h0]
    simp [kwayMergeFuel, h0]
  | succ fuel ih =>
    intro u h
    cases hp : pickMin comp u with
    | none =>
      rw [kwayMerge_eq_nil hp]
      have := (pickMin_eq_none_iff comp u).mp hp
      simp [this]
    | some p =>
      obtain ⟨j, a⟩ := p
      have hpop := totalLen_popAt u j (pickMin_getD_ne_nil hp)
      rw [kwayMerge_eq_cons hp]
      simp only [List.length_cons]
      rw [ih (popAt u j) (by omega)]
      omega

theorem kwayMerge_stepN_drop {α : Type} (comp : α → α → Bool) :
    ∀ (r : Nat) (u : List (List α)),
      kwayMerge comp (stepN comp u r) = (kwayMerge comp u).drop r := by
  intro r
  induction r with
  | zero => intro u; rfl
  | succ r ih =>
    intro u
    rw [stepN_succ, ih]
    cases hp : pickMin comp u with
    | none =>
      rw [stepMerge_none hp, kwayMerge_eq_nil hp]
      simp
    | some p =>
      obtain ⟨j, a⟩ := p
      rw [stepMerge_some hp, kwayMerge_eq_cons hp]
      rfl

theorem mem_kwayMerge {α : Type} (comp : α → α → Bool) {u : List (List α)} {y : α}
    (hy : y ∈ kwayMerge comp u) : ∃ s, y ∈ u.getD s [] := by
  suffices h : ∀ (fuel : Nat) (u : List (List α)), totalLen u ≤ fuel →
      y ∈ kwayMerge comp u → ∃ s, y ∈ u.getD s [] by
    exact h (totalLen u) u (Nat.le_refl _) hy
  intro fuel
  induction fuel with
  | zero =>
    intro u h hmem
    have h0 : totalLen u = 0 := by omega
    rw [kwayMerge_eq_nil ((pickMin_eq_none_iff comp u).mpr h0)] at hmem
    simp at hmem
  | succ fuel ih =>
    intro u h hmem
    cases hp : pickMin comp u with
    | none =>
      rw [kwayMerge_eq_nil hp] at hmem
      simp at hmem
    | some p =>
      obtain ⟨j, a⟩ := p
      have hpop := totalLen_popAt u j (pickMin_getD_ne_nil hp)
      rw [kwayMerge_eq_cons hp] at hmem
      rcases List.mem_cons.mp hmem with rfl | hmem
      · refine ⟨j, ?_⟩
        have := pickMin_head hp
        cases hl : u.getD j [] with
        | nil => rw [hl] at this; simp at this
        | cons x xs =>
          rw [hl] at this
          simp at this
          simp [this]
      · obtain ⟨s, hs⟩ := ih (popAt u j) (by omega) hmem
        exact ⟨s, popAt_getD_subset hs⟩

/-! ### Winner preservation under candidate removal -/

theorem forall2_of_getD {α β : Type} {R : α → β → Prop} (d : α) (d' : β) :
    ∀ (l : List α) (l' : List β), l.length = l'.length →
      (∀ i, i < l.length → R (l.getD i d) (l'.getD i d')) → List.Forall₂ R l l' := by
  intro l
  induction l with
  | nil =>
    intro l' hl _
    cases l' with
    | nil => exact List.Forall₂.nil
    | cons y t' => simp at hl
  | cons x t ih =>
    intro l' hl h
    cases l' with
    | nil => simp at hl
    | cons y t' =>
      refine List.Forall₂.cons ?_ ?_
      · simpa using h 0 (by simp)
      · exact ih t' (by simpa using hl)
          (fun i hi => by simpa using h (i + 1) (by simpa using hi))

theorem forall2_getD {α β : Type} {R : α → β → Prop} {d : α} {d' : β} (hd : R d d') :
    ∀ {l : List α} {l' : List β}, List.Forall₂ R l l' →
      ∀ i, R (l.getD i d) (l'.getD i d') := by
  intro l l' h
  induction h with
  | nil => intro i; simpa using hd
  | cons hr ht ih =>
    intro i
    cases i with
    | zero => simpa using hr
    | succ i => simpa using ih i

theorem forall2_mem_right {α β : Type} {R : α → β → Prop} {l : List α} {l' : List β}
    (h : List.Forall₂ R l l') : ∀ x ∈ l', ∃ y ∈ l, R y x := by
  induction h with
  | nil => simp
  | cons hr ht ih =>
    intro x hx
    rcases List.mem_cons.mp hx with rfl | hx
    · exact ⟨_, List.mem_cons_self _ _, hr⟩
    · obtain ⟨y, hy, hR⟩ := ih x hx
      exact ⟨y, List.mem_cons_of_mem _ hy, hR⟩

theorem pickMinAux_preserve {α : Type} {comp : α → α → Bool}
    (hswo : IsStrictWeakOrder comp) {hs hs' : List (Option α)}
    (hrel : List.Forall₂ (fun o o' => o' = o ∨ o' = none) hs hs') :
    ∀ (j : Nat) (a : α), pickMinAux comp hs = some (j, a) →
      hs'.getD j none = some a → pickMinAux comp hs' = some (j, a) := by
  induction hrel with
  | nil =>
    intro j a h _
    simp [pickMinAux] at h
  | @cons o o' t t' hr ht ih =>
    intro j a hp hj'
    cases o with
    | none =>
      have ho' : o' = none := by rcases hr with rfl | rfl <;> rfl
      subst ho'
      cases hpt : pickMinAux comp t with
      | none => simp [pickMinAux, hpt] at hp
      | some p =>
        obtain ⟨k, b⟩ := p
        simp only [pickMinAux, hpt, Option.map_some'] at hp
        obtain ⟨h1, h2⟩ : k + 1 = j ∧ b = a := by simpa using hp
        subst h1
        rw [← h2] at hj' ⊢
        have hj'' : t'.getD k none = some b := by simpa using hj'
        have hres := ih k b hpt hj''
        simp [pickMinAux, hres]
    | some b =>
      cases hpt : pickMinAux comp t with
      | none =>
        simp only [pickMinAux, hpt] at hp
        obtain ⟨h1, h2⟩ : 0 = j ∧ b = a := by simpa using hp
        subst h1
        rw [← h2] at hj' ⊢
        have ho' : o' = some b := by simpa using hj'
        subst ho'
        have hall := (pickMinAux_eq_none_iff comp t).mp hpt
        have hall' : ∀ x ∈ t', x = none := by
          intro x hx
          obtain ⟨y, hy, hR⟩ := forall2_mem_right ht x hx
          rcases hR with rfl | rfl
          · exact hall _ hy
          · rfl
        have hnone : pickMinAux comp t' = none :=
          (pickMinAux_eq_none_iff comp t').mpr hall'
        simp [pickMinAux, hnone]
      | some p =>
        obtain ⟨k, c⟩ := p
        by_cases hc : comp c b
        · simp only [pickMinAux, hpt, hc, if_true] at hp
          obtain ⟨h1, h2⟩ : k + 1 = j ∧ c = a := by simpa using hp
          subst h1
          rw [← h2] at hj' ⊢
          have hj'' : t'.getD k none = some c := by simpa using hj'
          have hres := ih k c hpt hj''
          rcases hr with rfl | rfl
          · simp [pickMinAux, hres, hc]
          · simp [pickMinAux, hres]
        · simp only [pickMinAux, hpt, hc, if_false] at hp
          obtain ⟨h1, h2⟩ : 0 = j ∧ b = a := by simpa using hp
          subst h1
          rw [← h2] at hj' ⊢
          have ho' : o' = some b := by simpa using hj'
          subst ho'
          cases hpt' : pickMinAux comp t' with
          | none => simp [pickMinAux, hpt']
          | some q =>
            obtain ⟨k', c'⟩ := q
            have hget' := pickMinAux_getD comp t' k' c' hpt'
            have hpw := @forall2_getD (Option α) (Option α)
              (fun o o' => o' = o ∨ o' = none) none none (Or.inl rfl) t t' ht k'
            have hgetT : t.getD k' none = some c' := by
              rcases hpw with heq | hnone
              · rw [← heq, hget']
              · rw [hnone] at hget'; simp at hget'
            have hcc' : comp c' c = false := pickMinAux_min hswo t k c hpt k' c' hgetT
            have hcb : comp c b = false := by simpa [Bool.not_eq_true] using hc
            have hfin : comp c' b = false := hswo.negtrans c' c b hcc' hcb
            simp [pickMinAux, hpt', hfin]

/-! ### The truncation lemma -/

theorem head?_take {α : Type} (l : List α) (k : Nat) :
    (l.take k).head? = if k = 0 then none else l.head? := by
  cases k with
  | zero => simp
  | succ k => cases l <;> simp

theorem tail_take {α : Type} (l : List α) (k : Nat) :
    (l.take k).tail = l.tail.take (k - 1) := by
  cases l with
  | nil => simp
  | cons x xs =>
    cases k with
    | zero => simp
    | succ k => simp

theorem truncTo_length {α : Type} (u : List (List α)) (keep : Nat → Nat) :
    (truncTo u keep).length = u.length := by
  simp [truncTo]

theorem truncTo_getD {α : Type} (u : List (List α)) (keep : Nat → Nat) (s : Nat) :
    (truncTo u keep).getD s [] = (u.getD s []).take (keep s) := by
  rw [truncTo, getD_range_map]
  by_cases h : s < u.length
  · rw [if_pos h]
  · rw [if_neg h, getD_of_length_le _ _ _ (by omega)]
    simp

theorem getD_mem_of_lt {α : Type} (d : α) (l : List α) (i : Nat) (h : i < l.length) :
    l.getD i d ∈ l := by
  rw [List.getD_eq_getElem?_getD, List.getElem?_eq_getElem h]
  simpa using List.getElem_mem h

theorem getD_eq_nil_of_total_zero {α : Type} {u : List (List α)}
    (htot : totalLen u = 0) (s : Nat) : u.getD s [] = [] := by
  rcases Nat.lt_or_ge s u.length with h | h
  · exact (totalLen_eq_zero_iff u).mp htot _ (getD_mem_of_lt [] u s h)
  · exact getD_of_length_le _ _ _ h

theorem consumedCount_succ_pick {α : Type} {comp : α → α → Bool} {u : List (List α)}
    {j : Nat} {a : α} (h : pickMin comp u = some (j, a)) (r s : Nat) :
    consumedCount comp u (r + 1) s
      = (if s = j then 1 else 0) + consumedCount comp (popAt u j) r s := by
  have hstep : stepN comp u (r + 1) = stepN comp (popAt u j) r := by
    rw [stepN_succ, stepMerge_some h]
  simp only [consumedCount, hstep]
  by_cases hs : s = j
  · subst hs
    have hne := pickMin_getD_ne_nil h
    have hlen : ((popAt u s).getD s []).length + 1 = (u.getD s []).length := by
      rw [popAt_getD_self]
      cases hl : u.getD s [] with
      | nil => exact absurd hl hne
      | cons x xs => simp
    have hle := (stepN_getD_suffix comp r (popAt u s) s).length_le
    rw [if_pos rfl]
    omega
  · rw [if_neg hs, popAt_getD_ne u hs]
    omega

theorem consumedCount_succ_pos {α : Type} {comp : α → α → Bool} {u : List (List α)}
    {j : Nat} {a : α} (h : pickMin comp u = some (j, a)) (r : Nat) :
    1 ≤ consumedCount comp u (r + 1) j := by
  rw [consumedCount_succ_pick h, if_pos rfl]
  omega

theorem kwayMerge_truncTo {α : Type} {comp : α → α → Bool}
    (hswo : IsStrictWeakOrder comp) :
    ∀ (L : Nat) (u : List (List α)),
      kwayMerge comp (truncTo u (fun s => consumedCount comp u L s))
        = (kwayMerge comp u).take L := by
  intro L
  induction L with
  | zero =>
    intro u
    rw [List.take_zero]
    apply kwayMerge_eq_nil
    rw [pickMin_eq_none_iff, totalLen_eq_zero_iff]
    intro l hl
    obtain ⟨s, _, rfl⟩ := List.mem_map.mp hl
    simp [consumedCount_zero]
  | succ L ih =>
    intro u
    cases hp : pickMin comp u with
    | none =>
      have htot := (pickMin_eq_none_iff comp u).mp hp
      rw [kwayMerge_eq_nil hp, List.take_nil]
      apply kwayMerge_eq_nil
      rw [pickMin_eq_none_iff, totalLen_eq_zero_iff]
      intro l hl
      obtain ⟨s, _, rfl⟩ := List.mem_map.mp hl
      rw [getD_eq_nil_of_total_zero htot]
      simp
    | some p =>
      obtain ⟨j, a⟩ := p
      have hkj : 1 ≤ consumedCount comp u (L + 1) j := consumedCount_succ_pos hp L
      have hrel : List.Forall₂ (fun o o' => o' = o ∨ o' = none)
          (heads u) (heads (truncTo u (fun s => consumedCount comp u (L + 1) s))) := by
        apply forall2_of_getD none none
        · simp [heads, truncTo_length]
        · intro i _
          rw [heads_getD, heads_getD, truncTo_getD, head?_take]
          by_cases hk : consumedCount comp u (L + 1) i = 0
          · rw [if_pos hk]
            right
            rfl
          · rw [if_neg hk]
            left
            rfl
      have hj' : (heads (truncTo u (fun s => consumedCount comp u (L + 1) s))).getD j none
          = some a := by
        rw [heads_getD, truncTo_getD, head?_take, if_neg (by omega)]
        exact pickMin_head hp
      have hptrunc : pickMin comp (truncTo u (fun s => consumedCount comp u (L + 1) s))
          = some (j, a) :=
        pickMinAux_preserve hswo hrel j a hp hj'
      rw [kwayMerge_eq_cons hptrunc, kwayMerge_eq_cons hp, List.take_succ_cons]
      congr 1
      have hpop_eq : popAt (truncTo u (fun s => consumedCount comp u (L + 1) s)) j
          = truncTo (popAt u j) (fun s => consumedCount comp (popAt u j) L s) := by
        apply listExtGetD ([] : List α)
        · rw [length_popAt, truncTo_length, truncTo_length, length_popAt]
        · intro i
          rw [truncTo_getD]
          by_cases hi : i = j
          · subst hi
            rw [popAt_getD_self, truncTo_getD, tail_take, popAt_getD_self]
            have hrec := consumedCount_succ_pick hp L i
            rw [if_pos rfl] at hrec
            have : consumedCount comp u (L + 1) i - 1
                = consumedCount comp (popAt u i) L i := by omega
            rw [this]
          · rw [popAt_getD_ne _ hi, truncTo_getD, popAt_getD_ne _ hi]
            have hrec := consumedCount_succ_pick hp L i
            rw [if_neg hi] at hrec
            rw [hrec, Nat.zero_add]
      rw [hpop_eq, ih (popAt u j)]

/-! ### Sum and rank bookkeeping -/

theorem range_map_sum_succ {α : Type} [AddCommMonoid α] (f : Nat → α) (n : Nat) :
    ((List.range (n + 1)).map f).sum = ((List.range n).map f).sum + f n := by
  rw [List.range_succ]
  simp

theorem totalLen_eq_range_sum {α : Type} :
    ∀ u : List (List α),
      totalLen u = ((List.range u.length).map (fun s => (u.getD s []).length)).sum := by
  intro u
  induction u with
  | nil => simp [totalLen]
  | cons l u ih =>
    rw [totalLen_cons, List.length_cons, List.range_succ_eq_map]
    simp only [List.map_cons, List.map_map, List.sum_cons]
    congr 1

theorem range_map_sum_sub (f g : Nat → Nat) :
    ∀ n : Nat, (∀ i, i < n → g i ≤ f i) →
      ((List.range n).map g).sum ≤ ((List.range n).map f).sum ∧
      ((List.range n).map (fun i => f i - g i)).sum
        = ((List.range n).map f).sum - ((List.range n).map g).sum := by
  intro n
  induction n with
  | zero => intro _; simp
  | succ n ih =>
    intro h
    obtain ⟨h1, h2⟩ := ih (fun i hi => h i (by omega))
    rw [range_map_sum_succ, range_map_sum_succ, range_map_sum_succ]
    have := h n (by omega)
    constructor
    · omega
    · omega

theorem sum_consumedCount {α : Type} (comp : α → α → Bool) (u : List (List α)) (r : Nat) :
    ((List.range u.length).map (fun s => consumedCount comp u r s)).sum
      = totalLen u - totalLen (stepN comp u r) := by
  have hle : ∀ s, s < u.length →
      ((stepN comp u r).getD s []).length ≤ (u.getD s []).length :=
    fun s _ => (stepN_getD_suffix comp r u s).length_le
  have h := range_map_sum_sub (fun s => (u.getD s []).length)
    (fun s => ((stepN comp u r).getD s []).length) u.length hle
  have hstep : totalLen (stepN comp u r)
      = ((List.range u.length).map (fun s => ((stepN comp u r).getD s []).length)).sum := by
    rw [totalLen_eq_range_sum, length_stepN]
  simp only [consumedCount]
  rw [h.2, ← totalLen_eq_range_sum, ← hstep]

theorem sum_consumedCount_of_le {α : Type} (comp : α → α → Bool)
    (u : List (List α)) (r : Nat) (h : r ≤ totalLen u) :
    ((List.range u.length).map (fun s => consumedCount comp u r s)).sum = r := by
  rw [sum_consumedCount, totalLen_stepN_of_le comp r u h]
  omega

theorem splitRank_zero (n nt : Nat) : splitRank n nt 0 = 0 := by
  simp [splitRank]

theorem splitRank_self (n nt : Nat) (h : 1 ≤ nt) : splitRank n nt nt = n := by
  rw [splitRank, Nat.mul_comm, Nat.mul_div_cancel n (by omega)]

theorem splitRank_mono (n nt : Nat) {w w' : Nat} (h : w ≤ w') :
    splitRank n nt w ≤ splitRank n nt w' :=
  Nat.div_le_div_right (Nat.mul_le_mul_right n h)

theorem splitRank_le (n nt w : Nat) (hnt : 1 ≤ nt) (hw : w ≤ nt) :
    splitRank n nt w ≤ n := by
  have := splitRank_mono n nt hw
  rwa [splitRank_self n nt hnt] at this

/-! ### Per-worker characterization over the exact splitting table -/

theorem exact_splitting_getD {α : Type} (stable : Bool) (comp : α → α → Bool)
    (seqs : List (List α)) (size total nt w : Nat) (hw : w < nt) :
    (multiway_merge_exact_splitting stable comp seqs size total nt).getD w []
      = (List.range seqs.length).map (fun s =>
          (consumedCount comp seqs (splitRank (min size total) nt w) s,
           consumedCount comp seqs (splitRank (min size total) nt (w + 1)) s)) := by
  rw [multiway_merge_exact_splitting, getD_range_map, if_pos hw]

theorem targetPos_exact {α : Type} (stable : Bool) (comp : α → α → Bool)
    (seqs : List (List α)) (size nt w : Nat) (hnt : 1 ≤ nt) (hw : w < nt) :
    targetPos ((multiway_merge_exact_splitting stable comp seqs size
        (totalLen seqs) nt).getD w [])
      = splitRank (min size (totalLen seqs)) nt w := by
  rw [exact_splitting_getD stable comp seqs size (totalLen seqs) nt w hw]
  rw [targetPos, List.map_map]
  have : (Prod.fst ∘ fun s =>
      (consumedCount comp seqs (splitRank (min size (totalLen seqs)) nt w) s,
       consumedCount comp seqs (splitRank (min size (totalLen seqs)) nt (w + 1)) s))
      = fun s => consumedCount comp seqs (splitRank (min size (totalLen seqs)) nt w) s := rfl
  rw [this]
  exact sum_consumedCount_of_le comp seqs _
    (le_trans (splitRank_le _ nt w hnt (by omega)) (Nat.min_le_right _ _))

theorem localSizeOf_exact {α : Type} (stable : Bool) (comp : α → α → Bool)
    (seqs : List (List α)) (size nt w : Nat) (hnt : 1 ≤ nt) (hw : w < nt) :
    localSizeOf ((multiway_merge_exact_splitting stable comp seqs size
        (totalLen seqs) nt).getD w [])
      = splitRank (min size (totalLen seqs)) nt (w + 1)
        - splitRank (min size (totalLen seqs)) nt w := by
  rw [exact_splitting_getD stable comp seqs size (totalLen seqs) nt w hw]
  rw [localSizeOf, List.map_map]
  have heq : ((fun p : Nat × Nat => p.2 - p.1) ∘ fun s =>
      (consumedCount comp seqs (splitRank (min size (totalLen seqs)) nt w) s,
       consumedCount comp seqs (splitRank (min size (totalLen seqs)) nt (w + 1)) s))
      = fun s => consumedCount comp seqs (splitRank (min size (totalLen seqs)) nt (w + 1)) s
          - consumedCount comp seqs (splitRank (min size (totalLen seqs)) nt w) s := rfl
  rw [heq]
  have hmono : ∀ s, s < seqs.length →
      consumedCount comp seqs (splitRank (min size (totalLen seqs)) nt w) s
        ≤ consumedCount comp seqs (splitRank (min size (totalLen seqs)) nt (w + 1)) s :=
    fun s _ => consumedCount_mono comp seqs (splitRank_mono _ nt (by omega)) s
  have h := range_map_sum_sub
    (fun s => consumedCount comp seqs (splitRank (min size (totalLen seqs)) nt (w + 1)) s)
    (fun s => consumedCount comp seqs (splitRank (min size (totalLen seqs)) nt w) s)
    seqs.length hmono
  rw [h.2]
  rw [sum_consumedCount_of_le comp seqs _
    (le_trans (splitRank_le _ nt (w + 1) hnt (by omega)) (Nat.min_le_right _ _))]
  rw [sum_consumedCount_of_le comp seqs _
    (le_trans (splitRank_le _ nt w hnt (by omega)) (Nat.min_le_right _ _))]

theorem length_chunkRow {α : Type} (seqs : List (List α)) (row : List (Nat × Nat)) :
    (chunkRow seqs row).length = seqs.length := by
  simp [chunkRow]

theorem chunkRow_getD {α : Type} (seqs : List (List α)) (row : List (Nat × Nat)) (s : Nat) :
    (chunkRow seqs row).getD s []
      = ((seqs.getD s []).drop (row.getD s (0, 0)).1).take
          ((row.getD s (0, 0)).2 - (row.getD s (0, 0)).1) := by
  rw [chunkRow, getD_range_map]
  by_cases h : s < seqs.length
  · rw [if_pos h]
  · rw [if_neg h, getD_of_length_le ([] : List α) seqs s (by omega)]
    simp

theorem chunkRow_exact_eq_truncTo {α : Type} (stable : Bool) (comp : α → α → Bool)
    (seqs : List (List α)) (size nt w : Nat) (hw : w < nt) :
    chunkRow seqs ((multiway_merge_exact_splitting stable comp seqs size
        (totalLen seqs) nt).getD w [])
      = truncTo (stepN comp seqs (splitRank (min size (totalLen seqs)) nt w))
          (fun s => consumedCount comp
            (stepN comp seqs (splitRank (min size (totalLen seqs)) nt w))
            (splitRank (min size (totalLen seqs)) nt (w + 1)
              - splitRank (min size (totalLen seqs)) nt w) s) := by
  apply listExtGetD ([] : List α)
  · rw [length_chunkRow, truncTo_length, length_stepN]
  · intro i
    rw [chunkRow_getD, truncTo_getD, stepN_getD_eq_drop]
    rw [exact_splitting_getD stable comp seqs size (totalLen seqs) nt w hw]
    rw [getD_range_map]
    by_cases hi : i < seqs.length
    · rw [if_pos hi]
      congr 1
      have hmono := splitRank_mono (min size (totalLen seqs)) nt
        (show w ≤ w + 1 by omega)
      have hadd := consumedCount_add comp seqs
        (splitRank (min size (totalLen seqs)) nt w)
        (splitRank (min size (totalLen seqs)) nt (w + 1)
          - splitRank (min size (totalLen seqs)) nt w) i
      have hsum : splitRank (min size (totalLen seqs)) nt w
          + (splitRank (min size (totalLen seqs)) nt (w + 1)
            - splitRank (min size (totalLen seqs)) nt w)
          = splitRank (min size (totalLen seqs)) nt (w + 1) := by omega
      rw [hsum] at hadd
      omega
    · rw [if_neg hi]
      rw [getD_of_length_le _ _ _ (by omega)]
      simp

theorem workerOut_exact {α : Type} (stable : Bool) (mwma : MultiwayMergeAlgorithm)
    {comp : α → α → Bool} (hswo : IsStrictWeakOrder comp)
    (seqs : List (List α)) (size nt w : Nat) (hnt : 1 ≤ nt) (hw : w < nt) :
    multiway_merge_base stable mwma comp
      (chunkRow seqs ((multiway_merge_exact_splitting stable comp seqs size
          (totalLen seqs) nt).getD w []))
      (workerLen size ((multiway_merge_exact_splitting stable comp seqs size
          (totalLen seqs) nt).getD w [])).toNat
      = ((kwayMerge comp seqs).drop (splitRank (min size (totalLen seqs)) nt w)).take
          (splitRank (min size (totalLen seqs)) nt (w + 1)
            - splitRank (min size (totalLen seqs)) nt w) := by
  have h1 : splitRank (min size (totalLen seqs)) nt w
      ≤ splitRank (min size (totalLen seqs)) nt (w + 1) :=
    splitRank_mono _ nt (by omega)
  have h2 : splitRank (min size (totalLen seqs)) nt (w + 1) ≤ min size (totalLen seqs) :=
    splitRank_le _ nt (w + 1) hnt (by omega)
  have h3 : min size (totalLen seqs) ≤ size := Nat.min_le_left _ _
  have hlim : (workerLen size ((multiway_merge_exact_splitting stable comp seqs size
      (totalLen seqs) nt).getD w [])).toNat
      = splitRank (min size (totalLen seqs)) nt (w + 1)
        - splitRank (min size (totalLen seqs)) nt w := by
    rw [workerLen, targetPos_exact stable comp seqs size nt w hnt hw,
        localSizeOf_exact stable comp seqs size nt w hnt hw]
    omega
  rw [multiway_merge_base, hlim]
  rw [chunkRow_exact_eq_truncTo stable comp seqs size nt w hw]
  rw [kwayMerge_truncTo hswo]
  rw [kwayMerge_stepN_drop]
  rw [List.take_take, Nat.min_self]

/-! ### Buffer assembly -/

theorem take_add' {α : Type} :
    ∀ (l : List α) (m n : Nat), l.take (m + n) = l.take m ++ (l.drop m).take n := by
  intro l
  induction l with
  | nil => intro m n; simp
  | cons x xs ih =>
    intro m n
    cases m with
    | zero => simp
    | succ m =>
      have h : m + 1 + n = (m + n) + 1 := by omega
      rw [h]
      simp only [List.take_succ_cons, List.drop_succ_cons, List.cons_append]
      rw [ih m n]

theorem writeAt_segment {α : Type} (M tgt : List α) (p L : Nat)
    (hp : p + L ≤ M.length) :
    writeAt (M.take p ++ tgt.drop p) p ((M.drop p).take L)
      = M.take (p + L) ++ tgt.drop (p + L) := by
  have hlenA : (M.take p).length = p := by
    rw [List.length_take]; omega
  have hlenSeg : ((M.drop p).take L).length = L := by
    rw [List.length_take, List.length_drop]; omega
  rw [writeAt, hlenSeg]
  rw [List.take_left' hlenA]
  have hdrop : (M.take p ++ tgt.drop p).drop (p + L) = tgt.drop (p + L) := by
    rw [← List.drop_drop, List.drop_left' hlenA, List.drop_drop]
  rw [hdrop, take_add' M p L, List.append_assoc]

theorem splitting_branch_eq {α : Type} (stable : Bool) (comp : α → α → Bool)
    (seqs : List (List α)) (size total nt : Nat)
    (mwmsa : MultiwayMergeSplittingAlgorithm) :
    (if mwmsa = MultiwayMergeSplittingAlgorithm.MWMSA_SAMPLING
     then multiway_merge_sampling_splitting stable comp seqs size total nt
     else multiway_merge_exact_splitting stable comp seqs size total nt)
    = multiway_merge_exact_splitting stable comp seqs size total nt := by
  by_cases h : mwmsa = MultiwayMergeSplittingAlgorithm.MWMSA_SAMPLING <;>
    simp [h, multiway_merge_sampling_splitting]

theorem fold_writeAt {α : Type} (stable : Bool) (mwma : MultiwayMergeAlgorithm)
    {comp : α → α → Bool} (hswo : IsStrictWeakOrder comp)
    (seqs : List (List α)) (target : List α) (size nt : Nat) (hnt : 1 ≤ nt) :
    ∀ w, w ≤ nt →
      (List.range w).foldl
        (fun b k =>
          writeAt b
            (targetPos ((multiway_merge_exact_splitting stable comp seqs size
                (totalLen seqs) nt).getD k []))
            (multiway_merge_base stable mwma comp
              (chunkRow seqs ((multiway_merge_exact_splitting stable comp seqs size
                  (totalLen seqs) nt).getD k []))
              (workerLen size ((multiway_merge_exact_splitting stable comp seqs size
                  (totalLen seqs) nt).getD k [])).toNat))
        target
      = (kwayMerge comp seqs).take (splitRank (min size (totalLen seqs)) nt w)
          ++ target.drop (splitRank (min size (totalLen seqs)) nt w) := by
  intro w
  induction w with
  | zero =>
    intro _
    simp [splitRank_zero]
  | succ w ih =>
    intro hw
    rw [List.range_succ, List.foldl_append, ih (by omega)]
    simp only [List.foldl_cons, List.foldl_nil]
    rw [targetPos_exact stable comp seqs size nt w hnt (by omega)]
    rw [workerOut_exact stable mwma hswo seqs size nt w hnt (by omega)]
    have h1 : splitRank (min size (totalLen seqs)) nt w
        ≤ splitRank (min size (totalLen seqs)) nt (w + 1) :=
      splitRank_mono _ nt (by omega)
    have h2 : splitRank (min size (totalLen seqs)) nt (w + 1) ≤ min size (totalLen seqs) :=
      splitRank_le _ nt (w + 1) hnt (by omega)
    have hsum : splitRank (min size (totalLen seqs)) nt w
        + (splitRank (min size (totalLen seqs)) nt (w + 1)
          - splitRank (min size (totalLen seqs)) nt w)
        = splitRank (min size (totalLen seqs)) nt (w + 1) := by omega
    have hp : splitRank (min size (totalLen seqs)) nt w
        + (splitRank (min size (totalLen seqs)) nt (w + 1)
          - splitRank (min size (totalLen seqs)) nt w)
        ≤ (kwayMerge comp seqs).length := by
      rw [length_kwayMerge, hsum]
      exact le_trans h2 (Nat.min_le_right _ _)
    rw [writeAt_segment (kwayMerge comp seqs) target _ _ hp, hsum]

theorem base_eq_some {α : Type} (stable : Bool) {comp : α → α → Bool}
    (hswo : IsStrictWeakOrder comp) (seqs : List (List α)) (target : List α)
    (size : Nat) (mwma : MultiwayMergeAlgorithm)
    (mwmsa : MultiwayMergeSplittingAlgorithm) {num_threads : Nat}
    (htot : totalLen (filterNe seqs) ≠ 0) (hnt : 1 ≤ num_threads) :
    parallel_multiway_merge_base stable comp seqs target size mwma mwmsa num_threads
      = some ⟨(kwayMerge comp (filterNe seqs)).take (min size (totalLen (filterNe seqs)))
                ++ target.drop (min size (totalLen (filterNe seqs))),
              reconcileSeqs
                ((multiway_merge_exact_splitting stable comp (filterNe seqs) size
                    (totalLen (filterNe seqs))
                    (clampThreads num_threads (totalLen (filterNe seqs)))).getD
                  (clampThreads num_threads (totalLen (filterNe seqs)) - 1) [])
                seqs 0,
              size⟩ := by
  have hclamp : 1 ≤ clampThreads num_threads (totalLen (filterNe seqs)) := by
    rw [clampThreads]
    split <;> omega
  have hcond : ¬(totalLen (filterNe seqs) = 0 ∨ (filterNe seqs).length = 0) := by
    push_neg
    refine ⟨htot, ?_⟩
    intro hlen
    rw [List.length_eq_zero] at hlen
    rw [hlen] at htot
    simp [totalLen] at htot
  simp only [parallel_multiway_merge_base]
  rw [if_neg hcond, if_neg (by omega), splitting_branch_eq]
  rw [fold_writeAt stable mwma hswo (filterNe seqs) target size
    (clampThreads num_threads (totalLen (filterNe seqs))) hclamp
    (clampThreads num_threads (totalLen (filterNe seqs))) (Nat.le_refl _)]
  rw [splitRank_self _ _ hclamp]

/-! ### Reconciler lemmas -/

theorem length_reconcileSeqs {α : Type} (row : List (Nat × Nat)) :
    ∀ (seqs : List (List α)) (cnt : Nat),
      (reconcileSeqs row seqs cnt).length = seqs.length := by
  intro seqs
  induction seqs with
  | nil => intro cnt; rfl
  | cons l rest ih =>
    intro cnt
    rw [reconcileSeqs]
    by_cases h : l.isEmpty <;> simp [h, ih]

theorem neIdx_zero {α : Type} (seqs : List (List α)) : neIdx seqs 0 = 0 := by
  simp [neIdx, filterNe]

theorem neIdx_succ {α : Type} (l : List α) (rest : List (List α)) (s : Nat) :
    neIdx (l :: rest) (s + 1)
      = (if l.isEmpty then 0 else 1) + neIdx rest s := by
  rw [neIdx, List.take_succ_cons, filterNe, List.filter_cons]
  by_cases h : l.isEmpty
  · simp [h, neIdx, filterNe]
  · rw [if_pos (show (!l.isEmpty) = true by simpa using h), if_neg h]
    simp only [List.length_cons]
    rw [neIdx, filterNe]
    omega

theorem reconcileSeqs_getD {α : Type} (row : List (Nat × Nat)) :
    ∀ (seqs : List (List α)) (cnt s : Nat),
      (reconcileSeqs row seqs cnt).getD s []
        = if (seqs.getD s []).isEmpty then seqs.getD s []
          else (seqs.getD s []).drop (row.getD (cnt + neIdx seqs s) (0, 0)).2 := by
  intro seqs
  induction seqs with
  | nil =>
    intro cnt s
    simp [reconcileSeqs]
  | cons l rest ih =>
    intro cnt s
    rw [reconcileSeqs]
    by_cases hl : l.isEmpty
    · rw [if_pos hl]
      cases s with
      | zero => simp [hl]
      | succ s =>
        simp only [List.getD_cons_succ]
        rw [ih cnt s, neIdx_succ, if_pos hl, Nat.zero_add]
    · rw [if_neg hl]
      cases s with
      | zero =>
        simp only [List.getD_cons_zero, neIdx_zero, Nat.add_zero]
        rw [if_neg (by simpa using hl)]
      | succ s =>
        simp only [List.getD_cons_succ]
        rw [ih (cnt + 1) s, neIdx_succ, if_neg hl]
        have : cnt + 1 + neIdx rest s = cnt + (1 + neIdx rest s) := by omega
        rw [this]

theorem reconcileSeqs_congr {α : Type} (row1 row2 : List (Nat × Nat))
    (h : ∀ k, (row1.getD k (0, 0)).2 = (row2.getD k (0, 0)).2) :
    ∀ (seqs : List (List α)) (cnt : Nat),
      reconcileSeqs row1 seqs cnt = reconcileSeqs row2 seqs cnt := by
  intro seqs
  induction seqs with
  | nil => intro cnt; rfl
  | cons l rest ih =>
    intro cnt
    rw [reconcileSeqs, reconcileSeqs]
    by_cases hl : l.isEmpty
    · rw [if_pos hl, if_pos hl, ih]
    · rw [if_neg hl, if_neg hl, ih, h cnt]

theorem filterNe_getD_neIdx {α : Type} :
    ∀ (seqs : List (List α)) (s : Nat), seqs.getD s [] ≠ [] →
      (filterNe seqs).getD (neIdx seqs s) [] = seqs.getD s [] := by
  intro seqs
  induction seqs with
  | nil => intro s h; simp at h
  | cons l rest ih =>
    intro s h
    cases s with
    | zero =>
      simp only [List.getD_cons_zero] at h ⊢
      rw [neIdx_zero, filterNe, List.filter_cons, if_pos (by simpa using h)]
      simp
    | succ s =>
      simp only [List.getD_cons_succ] at h ⊢
      rw [neIdx_succ, filterNe, List.filter_cons]
      by_cases hl : l.isEmpty
      · rw [if_pos hl, if_neg (by simpa using hl), Nat.zero_add]
        exact ih s h
      · rw [if_neg hl, if_pos (by simpa [Bool.not_eq_true] using hl)]
        simp only [Nat.add_comm 1 (neIdx rest s)]
        rw [show neIdx rest s + 1 = neIdx rest s + 1 from rfl]
        simp only [List.getD_cons_succ]
        exact ih s h

theorem neIdx_lt_filterNe_length {α : Type} :
    ∀ (seqs : List (List α)) (s : Nat), seqs.getD s [] ≠ [] →
      neIdx seqs s < (filterNe seqs).length := by
  intro seqs
  induction seqs with
  | nil => intro s h; simp at h
  | cons l rest ih =>
    intro s h
    cases s with
    | zero =>
      simp only [List.getD_cons_zero] at h
      rw [neIdx_zero, filterNe, List.filter_cons, if_pos (by simpa using h)]
      simp
    | succ s =>
      simp only [List.getD_cons_succ] at h
      rw [neIdx_succ, filterNe, List.filter_cons]
      by_cases hl : l.isEmpty
      · rw [if_pos hl, if_neg (by simpa using hl), Nat.zero_add]
        exact ih s h
      · rw [if_neg hl, if_pos (by simpa [Bool.not_eq_true] using hl)]
        have := ih s h
        simp only [List.length_cons]
        rw [filterNe] at this
        omega

theorem exact_last_row_snd {α : Type} (stable : Bool) (comp : α → α → Bool)
    (seqs : List (List α)) (size nt k : Nat) (hnt : 1 ≤ nt) :
    (((multiway_merge_exact_splitting stable comp seqs size (totalLen seqs) nt).getD
        (nt - 1) []).getD k (0, 0)).2
      = if k < seqs.length
        then consumedCount comp seqs (min size (totalLen seqs)) k
        else 0 := by
  rw [exact_splitting_getD stable comp seqs size (totalLen seqs) nt (nt - 1) (by omega)]
  rw [getD_range_map]
  by_cases hk : k < seqs.length
  · rw [if_pos hk, if_pos hk]
    have hsucc : nt - 1 + 1 = nt := by omega
    simp only
    rw [hsucc, splitRank_self _ _ hnt]
  · rw [if_neg hk, if_neg hk]

/-! ### Merging ignores empty sequences -/

theorem totalLen_filterNe {α : Type} :
    ∀ u : List (List α), totalLen (filterNe u) = totalLen u := by
  intro u
  induction u with
  | nil => rfl
  | cons l u ih =>
    rw [filterNe, List.filter_cons]
    by_cases h : l.isEmpty
    · rw [if_neg (by simpa using h), totalLen_cons]
      have : l = [] := by
        cases l with
        | nil => rfl
        | cons x xs => simp at h
      rw [this]
      simpa [filterNe] using ih
    · rw [if_pos (by simpa using h), totalLen_cons, totalLen_cons]
      rw [filterNe] at ih
      omega

theorem filterNe_cons_nil {α : Type} (u : List (List α)) :
    filterNe ([] :: u) = filterNe u := by
  simp [filterNe, List.filter_cons]

theorem filterNe_cons_cons {α : Type} (x : α) (xs : List α) (u : List (List α)) :
    filterNe ((x :: xs) :: u) = (x :: xs) :: filterNe u := by
  simp [filterNe, List.filter_cons]

theorem filterNe_cons_congr {α : Type} {u v : List (List α)} (l : List α)
    (h : filterNe u = filterNe v) : filterNe (l :: u) = filterNe (l :: v) := by
  cases l with
  | nil => rw [filterNe_cons_nil, filterNe_cons_nil, h]
  | cons x xs => rw [filterNe_cons_cons, filterNe_cons_cons, h]

theorem popAt_zero_cons {α : Type} (l : List α) (u : List (List α)) :
    popAt (l :: u) 0 = l.tail :: u := by
  simp [popAt]

theorem popAt_succ_cons {α : Type} (l : List α) (u : List (List α)) (j : Nat) :
    popAt (l :: u) (j + 1) = l :: popAt u j := by
  simp [popAt]

theorem pickMin_nil {α : Type} (comp : α → α → Bool) :
    pickMin comp ([] : List (List α)) = none := rfl

theorem pickMin_cons_nil_shift {α : Type} (comp : α → α → Bool) (u : List (List α)) :
    pickMin comp ([] :: u) = (pickMin comp u).map (fun p => (p.1 + 1, p.2)) := by
  simp [pickMin, heads, pickMinAux]

theorem pickMin_cons_cons_none {α : Type} {comp : α → α → Bool} (x : α) (xs : List α)
    {u : List (List α)} (h : pickMin comp u = none) :
    pickMin comp ((x :: xs) :: u) = some (0, x) := by
  have h' : pickMinAux comp (List.map List.head? u) = none := h
  simp [pickMin, heads, pickMinAux, h']

theorem pickMin_cons_cons_some {α : Type} {comp : α → α → Bool} (x : α) (xs : List α)
    {u : List (List α)} {k : Nat} {b : α} (h : pickMin comp u = some (k, b)) :
    pickMin comp ((x :: xs) :: u)
      = if comp b x then some (k + 1, b) else some (0, x) := by
  have h' : pickMinAux comp (List.map List.head? u) = some (k, b) := h
  simp [pickMin, heads, pickMinAux, h']

theorem pickMin_filter_corr {α : Type} (comp : α → α → Bool) :
    ∀ (n : Nat) (u v : List (List α)), u.length + v.length ≤ n →
      filterNe u = filterNe v →
      ((pickMin comp u = none ↔ pickMin comp v = none) ∧
       ∀ j a, pickMin comp u = some (j, a) →
         ∃ j', pickMin comp v = some (j', a)
           ∧ filterNe (popAt u j) = filterNe (popAt v j')) := by
  intro n
  induction n with
  | zero =>
    intro u v hn hf
    have hu : u = [] := by
      cases u with
      | nil => rfl
      | cons l u' => simp at hn
    have hv : v = [] := by
      cases v with
      | nil => rfl
      | cons l v' => simp at hn
    subst hu; subst hv
    refine ⟨Iff.rfl, ?_⟩
    intro j a h
    simp [pickMin_nil] at h
  | succ n ih =>
    intro u v hn hf
    cases u with
    | nil =>
      have hfv : filterNe v = [] := by
        rw [← hf]; rfl
      have htv : totalLen v = 0 := by
        rw [← totalLen_filterNe, hfv]; rfl
      have hvnone : pickMin comp v = none := (pickMin_eq_none_iff comp v).mpr htv
      refine ⟨⟨fun _ => hvnone, fun _ => rfl⟩, ?_⟩
      intro j a h
      simp [pickMin_nil] at h
    | cons l u' =>
      cases l with
      | nil =>
        have hf' : filterNe u' = filterNe v := by rw [← filterNe_cons_nil u', hf]
        obtain ⟨hiff, hsome⟩ := ih u' v (by simp only [List.length_cons] at hn; omega) hf'
        constructor
        · rw [pickMin_cons_nil_shift]
          rw [Option.map_eq_none']
          exact hiff
        · intro j a h
          rw [pickMin_cons_nil_shift] at h
          cases hp' : pickMin comp u' with
          | none => rw [hp'] at h; simp at h
          | some p =>
            obtain ⟨k, b⟩ := p
            rw [hp'] at h
            simp only [Option.map_some'] at h
            obtain ⟨h1, h2⟩ : k + 1 = j ∧ b = a := by simpa using h
            subst h1
            rw [← h2]
            obtain ⟨j', hv', hfpop⟩ := hsome k b hp'
            refine ⟨j', hv', ?_⟩
            rw [popAt_succ_cons, filterNe_cons_nil]
            exact hfpop
      | cons x xs =>
        cases v with
        | nil =>
          rw [filterNe_cons_cons] at hf
          simp [filterNe] at hf
        | cons m v' =>
          cases m with
          | nil =>
            have hf' : filterNe ((x :: xs) :: u') = filterNe v' := by
              rw [hf, filterNe_cons_nil]
            obtain ⟨hiff, hsome⟩ := ih ((x :: xs) :: u') v'
              (by simp at hn ⊢; omega) hf'
            constructor
            · rw [pickMin_cons_nil_shift, Option.map_eq_none']
              exact hiff
            · intro j a h
              obtain ⟨j', hv', hfpop⟩ := hsome j a h
              refine ⟨j' + 1, ?_, ?_⟩
              · rw [pickMin_cons_nil_shift, hv']
                rfl
              · rw [popAt_succ_cons, filterNe_cons_nil]
                exact hfpop
          | cons y ys =>
            rw [filterNe_cons_cons, filterNe_cons_cons] at hf
            obtain ⟨hhead, hf'⟩ : (x :: xs) = (y :: ys) ∧ filterNe u' = filterNe v' := by
              exact ⟨(List.cons.injEq _ _ _ _).mp hf |>.1, (List.cons.injEq _ _ _ _).mp hf |>.2⟩
            obtain ⟨hx, hxs⟩ : x = y ∧ xs = ys := by
              exact ⟨(List.cons.injEq _ _ _ _).mp hhead |>.1, (List.cons.injEq _ _ _ _).mp hhead |>.2⟩
            subst hx; subst hxs
            obtain ⟨hiff, hsome⟩ := ih u' v' (by simp at hn ⊢; omega) hf'
            cases hp' : pickMin comp u' with
            | none =>
              have hv'none : pickMin comp v' = none := hiff.mp hp'
              have hu := pickMin_cons_cons_none x xs hp'
              have hv := pickMin_cons_cons_none x xs hv'none
              constructor
              · rw [hu, hv]
              · intro j a h
                rw [hu] at h
                obtain ⟨h1, h2⟩ : 0 = j ∧ x = a := by simpa using h
                subst h1
                rw [← h2]
                refine ⟨0, hv, ?_⟩
                rw [popAt_zero_cons, popAt_zero_cons]
                exact filterNe_cons_congr _ hf'
            | some p =>
              obtain ⟨k, b⟩ := p
              obtain ⟨k', hv'some, hfpop⟩ := hsome k b hp'
              have hu := pickMin_cons_cons_some x xs hp'
              have hv := pickMin_cons_cons_some x xs hv'some
              by_cases hc : comp b x
              · rw [if_pos hc] at hu hv
                constructor
                · rw [hu, hv]
                  simp
                · intro j a h
                  rw [hu] at h
                  obtain ⟨h1, h2⟩ : k + 1 = j ∧ b = a := by simpa using h
                  subst h1
                  rw [← h2]
                  refine ⟨k' + 1, hv, ?_⟩
                  rw [popAt_succ_cons, popAt_succ_cons]
                  exact filterNe_cons_congr _ hfpop
              · rw [if_neg hc] at hu hv
                constructor
                · rw [hu, hv]
                · intro j a h
                  rw [hu] at h
                  obtain ⟨h1, h2⟩ : 0 = j ∧ x = a := by simpa using h
                  subst h1
                  rw [← h2]
                  refine ⟨0, hv, ?_⟩
                  rw [popAt_zero_cons, popAt_zero_cons]
                  exact filterNe_cons_congr _ hf'

theorem kwayMerge_filter_congr {α : Type} (comp : α → α → Bool) :
    ∀ (n : Nat) (u v : List (List α)), totalLen u ≤ n → filterNe u = filterNe v →
      kwayMerge comp u = kwayMerge comp v := by
  intro n
  induction n with
  | zero =>
    intro u v hn hf
    have htu : totalLen u = 0 := by omega
    have htv : totalLen v = 0 := by
      rw [← totalLen_filterNe, ← hf, totalLen_filterNe]
      exact htu
    rw [kwayMerge_eq_nil ((pickMin_eq_none_iff comp u).mpr htu),
        kwayMerge_eq_nil ((pickMin_eq_none_iff comp v).mpr htv)]
  | succ n ih =>
    intro u v hn hf
    obtain ⟨hiff, hsome⟩ :=
      pickMin_filter_corr comp (u.length + v.length) u v (Nat.le_refl _) hf
    cases hp : pickMin comp u with
    | none => rw [kwayMerge_eq_nil hp, kwayMerge_eq_nil (hiff.mp hp)]
    | some p =>
      obtain ⟨j, a⟩ := p
      obtain ⟨j', hv', hfpop⟩ := hsome j a hp
      rw [kwayMerge_eq_cons hp, kwayMerge_eq_cons hv']
      have hpop := totalLen_popAt u j (pickMin_getD_ne_nil hp)
      rw [ih (popAt u j) (popAt v j') (by omega) hfpop]

theorem kwayMerge_filterNe {α : Type} (comp : α → α → Bool) (u : List (List α)) :
    kwayMerge comp (filterNe u) = kwayMerge comp u := by
  apply kwayMerge_filter_congr comp (totalLen (filterNe u)) _ _ (Nat.le_refl _)
  show (filterNe u).filter (fun l => !l.isEmpty) = filterNe u
  apply List.filter_eq_self.mpr
  intro l hl
  have hl' : l ∈ u.filter (fun l => !l.isEmpty) := hl
  exact (List.mem_filter.mp hl').2

/-! ### Transport along key projection -/

theorem set_map {α β : Type} (g : α → β) :
    ∀ (l : List α) (j : Nat) (x : α), (l.map g).set j (g x) = (l.set j x).map g := by
  intro l
  induction l with
  | nil => intro j x; rfl
  | cons h t ih =>
    intro j x
    cases j with
    | zero => rfl
    | succ j =>
      simp only [List.map_cons, List.set_cons_succ]
      rw [ih]

theorem getD_map_nil {α β : Type} (g : List α → List β) (hg : g [] = [])
    (u : List (List α)) (s : Nat) :
    (u.map g).getD s [] = g (u.getD s []) := by
  have := getD_map g ([] : List α) u s
  rwa [hg] at this

theorem popAt_map {α β : Type} (f : α → β) (u : List (List α)) (j : Nat) :
    popAt (u.map (List.map f)) j = (popAt u j).map (List.map f) := by
  rw [popAt, popAt]
  rw [getD_map_nil (List.map f) rfl u j, ← List.map_tail, set_map (List.map f) u j]

theorem heads_map {α β : Type} (f : α → β) (u : List (List α)) :
    heads (u.map (List.map f)) = (heads u).map (Option.map f) := by
  rw [heads, heads, List.map_map, List.map_map]
  apply List.map_congr_left
  intro l _
  simp

theorem pickMinAux_map {α β : Type} (comp : β → β → Bool) (f : α → β) :
    ∀ hs : List (Option α),
      pickMinAux comp (hs.map (Option.map f))
        = (pickMinAux (fun a b => comp (f a) (f b)) hs).map (fun p => (p.1, f p.2)) := by
  intro hs
  induction hs with
  | nil => rfl
  | cons h t ih =>
    cases h with
    | none =>
      simp only [List.map_cons, Option.map_none', pickMinAux, ih]
      cases hpt : pickMinAux (fun a b => comp (f a) (f b)) t with
      | none => rfl
      | some p => rfl
    | some a =>
      simp only [List.map_cons, Option.map_some', pickMinAux, ih]
      cases hpt : pickMinAux (fun a b => comp (f a) (f b)) t with
      | none => rfl
      | some p =>
        obtain ⟨i, b⟩ := p
        by_cases hc : comp (f b) (f a)
        · simp [hc]
        · simp [hc]

theorem pickMin_map {α β : Type} (comp : β → β → Bool) (f : α → β) (u : List (List α)) :
    pickMin comp (u.map (List.map f))
      = (pickMin (fun a b => comp (f a) (f b)) u).map (fun p => (p.1, f p.2)) := by
  rw [pickMin, pickMin, heads_map, pickMinAux_map]

theorem stepMerge_map {α β : Type} (comp : β → β → Bool) (f : α → β) (u : List (List α)) :
    stepMerge comp (u.map (List.map f))
      = (stepMerge (fun a b => comp (f a) (f b)) u).map (List.map f) := by
  rw [stepMerge, stepMerge, pickMin_map]
  cases hp : pickMin (fun a b => comp (f a) (f b)) u with
  | none => rfl
  | some p =>
    obtain ⟨j, a⟩ := p
    simp [popAt_map]

theorem stepN_map {α β : Type} (comp : β → β → Bool) (f : α → β) :
    ∀ (r : Nat) (u : List (List α)),
      stepN comp (u.map (List.map f)) r
        = (stepN (fun a b => comp (f a) (f b)) u r).map (List.map f) := by
  intro r
  induction r with
  | zero => intro u; rfl
  | succ r ih =>
    intro u
    rw [stepN_succ, stepMerge_map, ih, stepN_succ]

theorem consumedCount_map {α β : Type} (comp : β → β → Bool) (f : α → β)
    (u : List (List α)) (r s : Nat) :
    consumedCount comp (u.map (List.map f)) r s
      = consumedCount (fun a b => comp (f a) (f b)) u r s := by
  rw [consumedCount, consumedCount, stepN_map]
  rw [getD_map_nil (List.map f) rfl u s,
      getD_map_nil (List.map f) rfl (stepN (fun a b => comp (f a) (f b)) u r) s]
  simp

/-! ### Provenance tags -/

theorem countP_take_kwayMerge {α : Type} (comp : α × Nat → α × Nat → Bool) (t : Nat) :
    ∀ (r : Nat) (W : List (List (α × Nat))) (k0 : Nat),
      (∀ p ∈ W.getD k0 [], p.2 = t) →
      (∀ k, k ≠ k0 → ∀ p ∈ W.getD k [], p.2 ≠ t) →
      ((kwayMerge comp W).take r).countP (fun p => decide (p.2 = t))
        = consumedCount comp W r k0 := by
  intro r
  induction r with
  | zero =>
    intro W k0 _ _
    simp [consumedCount_zero]
  | succ r ih =>
    intro W k0 h1 h2
    cases hp : pickMin comp W with
    | none =>
      rw [kwayMerge_eq_nil hp]
      have htot := (pickMin_eq_none_iff comp W).mp hp
      rw [consumedCount, stepN_total_zero comp _ W htot]
      simp
    | some p =>
      obtain ⟨j, a⟩ := p
      rw [kwayMerge_eq_cons hp, List.take_succ_cons, List.countP_cons]
      rw [consumedCount_succ_pick hp]
      have ha : a ∈ W.getD j [] := by
        have hh := pickMin_head hp
        cases hl : W.getD j [] with
        | nil => rw [hl] at hh; simp at hh
        | cons x xs =>
          rw [hl] at hh
          simp at hh
          simp [hh]
      have hih := ih (popAt W j) k0
        (fun p hp' => h1 p (popAt_getD_subset hp'))
        (fun k hk p hp' => h2 k hk p (popAt_getD_subset hp'))
      rw [hih]
      by_cases hk : k0 = j
      · have hat : a.2 = t := h1 a (by rw [hk]; exact ha)
        rw [if_pos (by simp [hat]), if_pos hk]
        omega
      · have hat : a.2 ≠ t := h2 j (fun hh => hk hh.symm) a ha
        rw [if_neg (by simp [hat]), if_neg hk]
        omega

theorem tagFrom_tag_ge {α : Type} :
    ∀ (seqs : List (List α)) (i : Nat), ∀ l' ∈ tagFrom seqs i, ∀ p ∈ l', i ≤ p.2 := by
  intro seqs
  induction seqs with
  | nil => intro i l' hl'; simp [tagFrom] at hl'
  | cons l rest ih =>
    intro i l' hl' p hp
    rw [tagFrom] at hl'
    rcases List.mem_cons.mp hl' with rfl | hl'
    · obtain ⟨x, _, rfl⟩ := List.mem_map.mp hp
      exact Nat.le_refl _
    · exact le_trans (by omega) (ih (i + 1) l' hl' p hp)

theorem tagFrom_pairwise {α : Type} :
    ∀ (seqs : List (List α)) (i : Nat),
      (tagFrom seqs i).Pairwise (fun l₁ l₂ => ∀ p ∈ l₁, ∀ q ∈ l₂, p.2 < q.2) := by
  intro seqs
  induction seqs with
  | nil => intro i; exact List.Pairwise.nil
  | cons l rest ih =>
    intro i
    rw [tagFrom]
    refine List.Pairwise.cons ?_ (ih (i + 1))
    intro l₂ hl₂ p hp q hq
    obtain ⟨x, _, rfl⟩ := List.mem_map.mp hp
    have := tagFrom_tag_ge rest (i + 1) l₂ hl₂ q hq
    simp only
    omega

theorem tagFrom_mem_exists {α : Type} :
    ∀ (seqs : List (List α)) (i : Nat), ∀ l' ∈ tagFrom seqs i,
      ∃ l t, l ∈ seqs ∧ l' = l.map (fun x => (x, t)) := by
  intro seqs
  induction seqs with
  | nil => intro i l' hl'; simp [tagFrom] at hl'
  | cons l rest ih =>
    intro i l' hl'
    rw [tagFrom] at hl'
    rcases List.mem_cons.mp hl' with rfl | hl'
    · exact ⟨l, i, List.mem_cons_self _ _, rfl⟩
    · obtain ⟨l0, t, hmem, rfl⟩ := ih (i + 1) l' hl'
      exact ⟨l0, t, List.mem_cons_of_mem _ hmem, rfl⟩

theorem isEmpty_map {α β : Type} (f : α → β) (l : List α) :
    (l.map f).isEmpty = l.isEmpty := by
  cases l <;> rfl

theorem filterNe_tagFrom_getD {α : Type} :
    ∀ (seqs : List (List α)) (i s : Nat), seqs.getD s [] ≠ [] →
      (filterNe (tagFrom seqs i)).getD (neIdx seqs s) []
        = (seqs.getD s []).map (fun x => (x, i + s)) := by
  intro seqs
  induction seqs with
  | nil => intro i s h; simp at h
  | cons l rest ih =>
    intro i s h
    cases s with
    | zero =>
      simp only [List.getD_cons_zero] at h ⊢
      rw [neIdx_zero, tagFrom, filterNe, List.filter_cons,
        if_pos (by rw [isEmpty_map]; simpa using h)]
      simp
    | succ s =>
      simp only [List.getD_cons_succ] at h ⊢
      rw [tagFrom, filterNe, List.filter_cons, neIdx_succ]
      by_cases hl : l.isEmpty
      · rw [if_neg (by rw [isEmpty_map]; simpa using hl), if_pos hl, Nat.zero_add]
        have := ih (i + 1) s h
        rw [filterNe] at this
        rw [this]
        have harith : i + 1 + s = i + (s + 1) := by omega
        rw [harith]
      · rw [if_pos (by rw [isEmpty_map]; simpa using hl), if_neg hl]
        simp only [Nat.add_comm 1 (neIdx rest s), List.getD_cons_succ]
        have := ih (i + 1) s h
        rw [filterNe] at this
        rw [this]
        have harith : i + 1 + s = i + (s + 1) := by omega
        rw [harith]

theorem filterNe_tagFrom_map_fst {α : Type} :
    ∀ (seqs : List (List α)) (i : Nat),
      (filterNe (tagFrom seqs i)).map (List.map Prod.fst) = filterNe seqs := by
  intro seqs
  induction seqs with
  | nil => intro i; rfl
  | cons l rest ih =>
    intro i
    rw [tagFrom, filterNe, filterNe, List.filter_cons, List.filter_cons]
    by_cases hl : l.isEmpty
    · rw [if_neg (by rw [isEmpty_map]; simpa using hl), if_neg (by simpa using hl)]
      have := ih (i + 1)
      rw [filterNe, filterNe] at this
      exact this
    · rw [if_pos (by rw [isEmpty_map]; simpa using hl), if_pos (by simpa using hl)]
      simp only [List.map_cons, List.map_map]
      have := ih (i + 1)
      rw [filterNe, filterNe] at this
      rw [this]
      congr 1
      rw [show (Prod.fst ∘ fun x : α => (x, i)) = id from rfl, List.map_id]

theorem getD_take_lt {α : Type} (l : List α) (n i : Nat) (d : α) (h : i < n) :
    (l.take n).getD i d = l.getD i d := by
  rw [List.getD_eq_getElem?_getD, List.getD_eq_getElem?_getD, List.getElem?_take_of_lt h]

theorem getD_eq_getElem_of_lt {α : Type} (l : List α) (i : Nat) (d : α)
    (h : i < l.length) : l.getD i d = l[i] := by
  rw [List.getD_eq_getElem?_getD, List.getElem?_eq_getElem h]
  rfl

theorem filterNe_tagFrom_inv1 {α : Type} (seqs : List (List α)) (i : Nat) :
    ∀ k p q, p ∈ (filterNe (tagFrom seqs i)).getD k [] →
      q ∈ (filterNe (tagFrom seqs i)).getD k [] → p.2 = q.2 := by
  intro k p q hp hq
  by_cases hk : k < (filterNe (tagFrom seqs i)).length
  · have hmem := getD_mem_of_lt ([] : List (α × Nat)) (filterNe (tagFrom seqs i)) k hk
    have hmem' : (filterNe (tagFrom seqs i)).getD k []
        ∈ (tagFrom seqs i).filter (fun l => !l.isEmpty) := hmem
    have htf : (filterNe (tagFrom seqs i)).getD k [] ∈ tagFrom seqs i :=
      (List.mem_filter.mp hmem').1
    obtain ⟨l, t, _, heq⟩ := tagFrom_mem_exists seqs i _ htf
    rw [heq] at hp hq
    obtain ⟨x, _, rfl⟩ := List.mem_map.mp hp
    obtain ⟨y, _, rfl⟩ := List.mem_map.mp hq
    rfl
  · rw [getD_of_length_le _ _ _ (by omega)] at hp
    simp at hp

theorem filterNe_tagFrom_inv2 {α : Type} (seqs : List (List α)) (i : Nat) :
    ∀ k1 k2 p q, k1 < k2 →
      p ∈ (filterNe (tagFrom seqs i)).getD k1 [] →
      q ∈ (filterNe (tagFrom seqs i)).getD k2 [] → p.2 < q.2 := by
  intro k1 k2 p q h12 hp hq
  have hpair : (filterNe (tagFrom seqs i)).Pairwise
      (fun l₁ l₂ => ∀ p ∈ l₁, ∀ q ∈ l₂, p.2 < q.2) :=
    List.Pairwise.sublist (List.filter_sublist _) (tagFrom_pairwise seqs i)
  have hk2 : k2 < (filterNe (tagFrom seqs i)).length := by
    by_contra hge
    rw [getD_of_length_le _ _ _ (by omega)] at hq
    simp at hq
  have hk1 : k1 < (filterNe (tagFrom seqs i)).length := by omega
  have hrel := (List.pairwise_iff_getElem.mp hpair) k1 k2 hk1 hk2 h12
  rw [getD_eq_getElem_of_lt _ _ _ hk1] at hp
  rw [getD_eq_getElem_of_lt _ _ _ hk2] at hq
  exact hrel p hp q hq

theorem filterNe_tagFrom_sorted {α : Type} {comp : α → α → Bool}
    (seqs : List (List α)) (i : Nat) (hsorted : ∀ l ∈ seqs, sortedAsc comp l) :
    ∀ k, sortedAsc (liftComp comp) ((filterNe (tagFrom seqs i)).getD k []) := by
  intro k
  by_cases hk : k < (filterNe (tagFrom seqs i)).length
  · have hmem := getD_mem_of_lt ([] : List (α × Nat)) (filterNe (tagFrom seqs i)) k hk
    have hmem' : (filterNe (tagFrom seqs i)).getD k []
        ∈ (tagFrom seqs i).filter (fun l => !l.isEmpty) := hmem
    have htf : (filterNe (tagFrom seqs i)).getD k [] ∈ tagFrom seqs i :=
      (List.mem_filter.mp hmem').1
    obtain ⟨l, t, hl, heq⟩ := tagFrom_mem_exists seqs i _ htf
    rw [heq, sortedAsc, List.chain'_map]
    exact hsorted l hl
  · rw [getD_of_length_le _ _ _ (by omega)]
    exact List.chain'_nil

theorem liftComp_swo {α : Type} {comp : α → α → Bool} (h : IsStrictWeakOrder comp) :
    IsStrictWeakOrder (liftComp comp) :=
  ⟨fun p => h.irrefl p.1, fun p q => h.asymm p.1 q.1, fun p q r => h.negtrans p.1 q.1 r.1⟩

theorem sorted_not_lt_head {α : Type} {comp : α → α → Bool}
    (hswo : IsStrictWeakOrder comp) :
    ∀ (l : List α), sortedAsc comp l → ∀ h0, l.head? = some h0 →
      ∀ y ∈ l, comp y h0 = false := by
  intro l
  induction l with
  | nil =>
    intro _ h0 hh
    simp at hh
  | cons x t ih =>
    intro hsort h0 hh y hy
    have hx : x = h0 := by simpa using hh
    subst hx
    rcases List.mem_cons.mp hy with rfl | hy
    · exact hswo.irrefl y
    · cases t with
      | nil => simp at hy
      | cons z t' =>
        rw [sortedAsc, List.chain'_cons] at hsort
        obtain ⟨hzx, hrest⟩ := hsort
        have hyz := ih hrest z rfl y hy
        exact hswo.negtrans y z x hyz hzx

theorem kwayMerge_stable_tags {α : Type} {comp : α → α → Bool}
    (hswo : IsStrictWeakOrder comp) :
    ∀ (fuel : Nat) (W : List (List (α × Nat))), totalLen W ≤ fuel →
      (∀ k, sortedAsc (liftComp comp) (W.getD k [])) →
      (∀ k p q, p ∈ W.getD k [] → q ∈ W.getD k [] → p.2 = q.2) →
      (∀ k1 k2 p q, k1 < k2 → p ∈ W.getD k1 [] → q ∈ W.getD k2 [] → p.2 < q.2) →
      ∀ i j (d : α × Nat), i < j → j < (kwayMerge (liftComp comp) W).length →
        comp ((kwayMerge (liftComp comp) W).getD i d).1
             ((kwayMerge (liftComp comp) W).getD j d).1 = false →
        comp ((kwayMerge (liftComp comp) W).getD j d).1
             ((kwayMerge (liftComp comp) W).getD i d).1 = false →
        ((kwayMerge (liftComp comp) W).getD i d).2
          ≤ ((kwayMerge (liftComp comp) W).getD j d).2 := by
  intro fuel
  induction fuel with
  | zero =>
    intro W hfuel _ _ _ i j d hij hj _ _
    have htot : totalLen W = 0 := by omega
    rw [kwayMerge_eq_nil ((pickMin_eq_none_iff _ W).mpr htot)] at hj
    simp at hj
  | succ fuel ih =>
    intro W hfuel hsort hinv1 hinv2 i j d hij hj heq1 heq2
    cases hp : pickMin (liftComp comp) W with
    | none =>
      rw [kwayMerge_eq_nil hp] at hj
      simp at hj
    | some p =>
      obtain ⟨jw, a⟩ := p
      have hpop := totalLen_popAt W jw (pickMin_getD_ne_nil hp)
      have hcons := kwayMerge_eq_cons hp
      have hsort' : ∀ k, sortedAsc (liftComp comp) ((popAt W jw).getD k []) := by
        intro k
        by_cases hk : k = jw
        · subst hk
          rw [popAt_getD_self]
          exact List.Chain'.tail (hsort k)
        · rw [popAt_getD_ne W hk]
          exact hsort k
      have hinv1' : ∀ k p q, p ∈ (popAt W jw).getD k [] →
          q ∈ (popAt W jw).getD k [] → p.2 = q.2 :=
        fun k p q hp' hq' => hinv1 k p q (popAt_getD_subset hp') (popAt_getD_subset hq')
      have hinv2' : ∀ k1 k2 p q, k1 < k2 → p ∈ (popAt W jw).getD k1 [] →
          q ∈ (popAt W jw).getD k2 [] → p.2 < q.2 :=
        fun k1 k2 p q h12 hp' hq' =>
          hinv2 k1 k2 p q h12 (popAt_getD_subset hp') (popAt_getD_subset hq')
      have ha : a ∈ W.getD jw [] := by
        have hh := pickMin_head hp
        cases hl : W.getD jw [] with
        | nil => rw [hl] at hh; simp at hh
        | cons x xs =>
          rw [hl] at hh
          simp at hh
          simp [hh]
      cases i with
      | zero =>
        cases j with
        | zero => omega
        | succ j' =>
          rw [hcons] at hj heq1 heq2 ⊢
          simp only [List.getD_cons_zero, List.getD_cons_succ, List.length_cons] at hj heq1 heq2 ⊢
          have hjlen : j' < (kwayMerge (liftComp comp) (popAt W jw)).length := by omega
          have hymem := getD_mem_of_lt d (kwayMerge (liftComp comp) (popAt W jw)) j' hjlen
          obtain ⟨s, hs⟩ := mem_kwayMerge (liftComp comp) hymem
          have hsW : (kwayMerge (liftComp comp) (popAt W jw)).getD j' d ∈ W.getD s [] :=
            popAt_getD_subset hs
          rcases Nat.lt_trichotomy s jw with hlt | hseq | hgt
          · exfalso
            have hsne : W.getD s [] ≠ [] := by
              intro h0
              rw [h0] at hsW
              simp at hsW
            obtain ⟨h0, hh0⟩ : ∃ h0, (W.getD s []).head? = some h0 := by
              cases hl : W.getD s [] with
              | nil => exact absurd hl hsne
              | cons x xs => exact ⟨x, rfl⟩
            have hbeats := pickMinAux_beats_earlier (liftComp comp) (heads W) jw a hp
              s hlt h0 (by rw [heads_getD]; exact hh0)
            have hbeats' : comp a.1 h0.1 = true := hbeats
            have hnot := sorted_not_lt_head (liftComp_swo hswo) (W.getD s []) (hsort s)
              h0 hh0 ((kwayMerge (liftComp comp) (popAt W jw)).getD j' d) hsW
            have hnot' : comp ((kwayMerge (liftComp comp) (popAt W jw)).getD j' d).1 h0.1
                = false := hnot
            have hcontra : comp a.1 h0.1 = false := hswo.negtrans _ _ _ heq1 hnot'
            rw [hbeats'] at hcontra
            simp at hcontra
          · rw [← hseq] at ha
            exact le_of_eq (hinv1 s a _ ha hsW)
          · exact le_of_lt (hinv2 jw s a _ hgt ha hsW)
      | succ i' =>
        cases j with
        | zero => omega
        | succ j' =>
          rw [hcons] at hj heq1 heq2 ⊢
          simp only [List.getD_cons_succ, List.length_cons] at hj heq1 heq2 ⊢
          exact ih (popAt W jw) (by omega) hsort' hinv1' hinv2' i' j' d (by omega)
            (by omega) heq1 heq2

/-! ### Shared helpers for the claim theorems -/

theorem base_cond_false {α : Type} {seqs : List (List α)}
    (htot : totalLen (filterNe seqs) ≠ 0) :
    ¬(totalLen (filterNe seqs) = 0 ∨ (filterNe seqs).length = 0) := by
  push_neg
  refine ⟨htot, ?_⟩
  intro hlen
  rw [List.length_eq_zero] at hlen
  rw [hlen] at htot
  simp [totalLen] at htot

theorem sum_map_eq_range_getD {β : Type} (f : β → Nat) (d : β) :
    ∀ row : List β,
      ((List.range row.length).map (fun s => f (row.getD s d))).sum
        = (row.map f).sum := by
  intro row
  induction row with
  | nil => simp
  | cons x t ih =>
    rw [List.length_cons, List.range_succ_eq_map]
    simp only [List.map_cons, List.map_map, List.sum_cons]
    congr 1

theorem natLtB_swo : IsStrictWeakOrder (fun a b : Nat => decide (a < b)) := by
  refine ⟨?_, ?_, ?_⟩
  · intro a
    simp
  · intro a b h
    simp at h ⊢
    omega
  · intro a b c h1 h2
    simp at h1 h2 ⊢
    omega

/-! ### Claim theorems -/

/-- C2: a call whose sequence set is empty or all-empty (total_size = 0) is a
no-op: the target buffer is untouched, the returned cursor is the original
target start, no workers are dispatched, and the sequences are unmodified. -/
theorem c2_noop_on_empty {α : Type} (stable : Bool) (comp : α → α → Bool)
    (seqs : List (List α)) (target : List α) (size : Nat)
    (mwma : MultiwayMergeAlgorithm) (mwmsa : MultiwayMergeSplittingAlgorithm)
    (num_threads : Nat) (h : ∀ l ∈ seqs, l = []) :
    parallel_multiway_merge_base stable comp seqs target size mwma mwmsa num_threads
      = some ⟨target, seqs, 0⟩ := by
  have htot : totalLen (filterNe seqs) = 0 := by
    rw [totalLen_filterNe]
    exact (totalLen_eq_zero_iff seqs).mpr h
  simp only [parallel_multiway_merge_base]
  rw [if_pos (Or.inl htot)]

theorem c2_witness :
    (∀ l ∈ ([[], []] : List (List Nat)), l = [])
    ∧ parallel_multiway_merge_base false (fun a b : Nat => decide (a < b))
        [[], []] [9, 9] 2 MultiwayMergeAlgorithm.MWMA_ALGORITHM_DEFAULT
        MWMSA_DEFAULT 2 = some ⟨[9, 9], [[], []], 0⟩ :=
  ⟨by decide,
   c2_noop_on_empty false (fun a b : Nat => decide (a < b)) [[], []] [9, 9] 2
     MultiwayMergeAlgorithm.MWMA_ALGORITHM_DEFAULT MWMSA_DEFAULT 2 (by decide)⟩

/-- C3: whenever at least one input sequence is non-empty (total_size > 0) and
a positive thread count is requested, the call succeeds and the returned
iterator is target + size, regardless of whether total_size < size. -/
theorem c3_returns_target_plus_size {α : Type} (stable : Bool) (comp : α → α → Bool)
    (seqs : List (List α)) (target : List α) (size : Nat)
    (mwma : MultiwayMergeAlgorithm) (mwmsa : MultiwayMergeSplittingAlgorithm)
    (num_threads : Nat) (htot : totalLen (filterNe seqs) ≠ 0)
    (hnt : 1 ≤ num_threads) :
    ∃ res : MergeResult α,
      parallel_multiway_merge_base stable comp seqs target size mwma mwmsa num_threads
        = some res ∧ res.ret = size := by
  have hcond := base_cond_false htot
  have hclamp : ¬clampThreads num_threads (totalLen (filterNe seqs)) = 0 := by
    rw [clampThreads]
    split <;> omega
  simp only [parallel_multiway_merge_base]
  rw [if_neg hcond, if_neg hclamp]
  exact ⟨_, rfl, rfl⟩

theorem c3_witness :
    totalLen (filterNe ([[1, 2, 3]] : List (List Nat))) ≠ 0
    ∧ (1 : Nat) ≤ 4
    ∧ ∃ res : MergeResult Nat,
        parallel_multiway_merge_base false (fun a b : Nat => decide (a < b))
          [[1, 2, 3]] [0, 0, 0, 0, 0, 0, 0, 0, 0, 0] 10
          MultiwayMergeAlgorithm.MWMA_ALGORITHM_DEFAULT MWMSA_DEFAULT 4
          = some res ∧ res.ret = 10 :=
  ⟨by decide, by decide,
   c3_returns_target_plus_size false (fun a b : Nat => decide (a < b))
     [[1, 2, 3]] [0, 0, 0, 0, 0, 0, 0, 0, 0, 0] 10
     MultiwayMergeAlgorithm.MWMA_ALGORITHM_DEFAULT MWMSA_DEFAULT 4
     (by decide) (by decide)⟩

/-- C4: with total_size > 0 the number of workers used is
min(requested num_threads, total_size): a request exceeding total_size is
silently clamped to total_size, and no error is signaled (for any positive
request the call succeeds). -/
theorem c4_clamp_threads {α : Type} (stable : Bool) (comp : α → α → Bool)
    (seqs : List (List α)) (target : List α) (size : Nat)
    (mwma : MultiwayMergeAlgorithm) (mwmsa : MultiwayMergeSplittingAlgorithm)
    (num_threads : Nat) (htot : totalLen (filterNe seqs) ≠ 0) :
    clampThreads num_threads (totalLen (filterNe seqs))
        = min num_threads (totalLen (filterNe seqs))
    ∧ (1 ≤ num_threads →
        (parallel_multiway_merge_base stable comp seqs target size mwma mwmsa
          num_threads).isSome = true) := by
  constructor
  · rw [clampThreads]
    split <;> omega
  · intro hnt
    have hcond := base_cond_false htot
    have hclamp : ¬clampThreads num_threads (totalLen (filterNe seqs)) = 0 := by
      rw [clampThreads]
      split <;> omega
    simp only [parallel_multiway_merge_base]
    rw [if_neg hcond, if_neg hclamp]
    rfl

theorem c4_witness :
    totalLen (filterNe ([[1, 2, 3]] : List (List Nat))) ≠ 0
    ∧ (clampThreads 4 (totalLen (filterNe ([[1, 2, 3]] : List (List Nat))))
          = min 4 (totalLen (filterNe ([[1, 2, 3]] : List (List Nat))))
        ∧ (1 ≤ 4 →
            (parallel_multiway_merge_base false (fun a b : Nat => decide (a < b))
              [[1, 2, 3]] [0, 0, 0] 3 MultiwayMergeAlgorithm.MWMA_ALGORITHM_DEFAULT
              MWMSA_DEFAULT 4).isSome = true)) :=
  ⟨by decide,
   c4_clamp_threads false (fun a b : Nat => decide (a < b)) [[1, 2, 3]] [0, 0, 0] 3
     MultiwayMergeAlgorithm.MWMA_ALGORITHM_DEFAULT MWMSA_DEFAULT 4 (by decide)⟩

/-- C1: for sorted inputs under a strict-weak-order comparator, any size, and
any num_threads between 1 and total_size, the first min(size, total_size)
elements of the target buffer after parallel_multiway_merge_base equal the
single-threaded stable K-way merge of the same sequences truncated to
min(size, total_size). -/
theorem c1_parallel_refines_sequential {α : Type} (stable : Bool)
    {comp : α → α → Bool} (hswo : IsStrictWeakOrder comp)
    (seqs : List (List α)) (target : List α) (size : Nat)
    (mwma : MultiwayMergeAlgorithm) (mwmsa : MultiwayMergeSplittingAlgorithm)
    (num_threads : Nat) (res : MergeResult α)
    (hsorted : ∀ l ∈ seqs, sortedAsc comp l)
    (hnt1 : 1 ≤ num_threads) (hnt2 : num_threads ≤ totalLen (filterNe seqs))
    (hres : parallel_multiway_merge_base stable comp seqs target size mwma mwmsa
      num_threads = some res) :
    res.buffer.take (min size (totalLen (filterNe seqs)))
      = (kwayMerge comp seqs).take (min size (totalLen (filterNe seqs))) := by
  have htot : totalLen (filterNe seqs) ≠ 0 := by omega
  have hC := base_eq_some stable hswo seqs target size mwma mwmsa htot hnt1
  rw [hres] at hC
  have hresC := Option.some.inj hC
  rw [hresC]
  simp only
  have hNle : min size (totalLen (filterNe seqs))
      ≤ (kwayMerge comp (filterNe seqs)).length := by
    rw [length_kwayMerge]
    exact Nat.min_le_right _ _
  have hlenA : ((kwayMerge comp (filterNe seqs)).take
      (min size (totalLen (filterNe seqs)))).length
      = min size (totalLen (filterNe seqs)) := by
    rw [List.length_take]
    omega
  rw [List.take_left' hlenA, kwayMerge_filterNe]

theorem c1_witness :
    IsStrictWeakOrder (fun a b : Nat => decide (a < b))
    ∧ (∀ l ∈ ([[1, 4, 7], [2, 5, 8], [3, 6, 9]] : List (List Nat)),
        sortedAsc (fun a b : Nat => decide (a < b)) l)
    ∧ (1 : Nat) ≤ 2
    ∧ 2 ≤ totalLen (filterNe ([[1, 4, 7], [2, 5, 8], [3, 6, 9]] : List (List Nat)))
    ∧ parallel_multiway_merge_base false (fun a b : Nat => decide (a < b))
        [[1, 4, 7], [2, 5, 8], [3, 6, 9]] [0, 0, 0, 0, 0] 5
        MultiwayMergeAlgorithm.MWMA_ALGORITHM_DEFAULT MWMSA_DEFAULT 2
        = some ⟨[1, 2, 3, 4, 5], [[7], [8], [6, 9]], 5⟩
    ∧ (MergeResult.buffer ⟨[1, 2, 3, 4, 5], [[7], [8], [6, 9]], 5⟩).take
          (min 5 (totalLen (filterNe ([[1, 4, 7], [2, 5, 8], [3, 6, 9]] : List (List Nat)))))
        = (kwayMerge (fun a b : Nat => decide (a < b))
            [[1, 4, 7], [2, 5, 8], [3, 6, 9]]).take
          (min 5 (totalLen (filterNe ([[1, 4, 7], [2, 5, 8], [3, 6, 9]] : List (List Nat))))) :=
  ⟨natLtB_swo, by simp [sortedAsc, List.chain'_cons], by decide, by decide, by decide,
   c1_parallel_refines_sequential false natLtB_swo
     [[1, 4, 7], [2, 5, 8], [3, 6, 9]] [0, 0, 0, 0, 0] 5
     MultiwayMergeAlgorithm.MWMA_ALGORITHM_DEFAULT MWMSA_DEFAULT 2
     ⟨[1, 2, 3, 4, 5], [[7], [8], [6, 9]], 5⟩
     (by simp [sortedAsc, List.chain'_cons]) (by decide) (by decide) (by decide)⟩

/-- C6: for every worker w, the output offset equals the sum over the
non-empty sequences of the distance from the sequence start to the worker's
chunk start, the requested output length is the minimum of the worker's chunk
total and size minus the offset, and consequently no worker writes past
target + size. -/
theorem c6_worker_offset_and_cap {α : Type} (stable : Bool)
    (mwma : MultiwayMergeAlgorithm) (comp : α → α → Bool)
    (seqs : List (List α)) (size nt w : Nat) (hnt : 1 ≤ nt) (hw : w < nt) :
    targetPos ((multiway_merge_exact_splitting stable comp (filterNe seqs) size
        (totalLen (filterNe seqs)) nt).getD w [])
      = ((List.range (filterNe seqs).length).map (fun s =>
          (((multiway_merge_exact_splitting stable comp (filterNe seqs) size
              (totalLen (filterNe seqs)) nt).getD w []).getD s (0, 0)).1)).sum
    ∧ workerLen size ((multiway_merge_exact_splitting stable comp (filterNe seqs) size
        (totalLen (filterNe seqs)) nt).getD w [])
      = min (localSizeOf ((multiway_merge_exact_splitting stable comp (filterNe seqs)
          size (totalLen (filterNe seqs)) nt).getD w []) : Int)
          ((size : Int) - (targetPos ((multiway_merge_exact_splitting stable comp
            (filterNe seqs) size (totalLen (filterNe seqs)) nt).getD w []) : Int))
    ∧ targetPos ((multiway_merge_exact_splitting stable comp (filterNe seqs) size
        (totalLen (filterNe seqs)) nt).getD w [])
      + (multiway_merge_base stable mwma comp
          (chunkRow (filterNe seqs) ((multiway_merge_exact_splitting stable comp
            (filterNe seqs) size (totalLen (filterNe seqs)) nt).getD w []))
          (workerLen size ((multiway_merge_exact_splitting stable comp (filterNe seqs)
            size (totalLen (filterNe seqs)) nt).getD w [])).toNat).length ≤ size := by
  have hrowlen : ((multiway_merge_exact_splitting stable comp (filterNe seqs) size
      (totalLen (filterNe seqs)) nt).getD w []).length = (filterNe seqs).length := by
    rw [exact_splitting_getD stable comp (filterNe seqs) size
      (totalLen (filterNe seqs)) nt w hw]
    simp
  refine ⟨?_, rfl, ?_⟩
  · rw [targetPos, ← hrowlen]
    exact (sum_map_eq_range_getD Prod.fst (0, 0) _).symm
  · have htp := targetPos_exact stable comp (filterNe seqs) size nt w hnt hw
    have htple : targetPos ((multiway_merge_exact_splitting stable comp (filterNe seqs)
        size (totalLen (filterNe seqs)) nt).getD w []) ≤ size := by
      rw [htp]
      exact le_trans (splitRank_le _ nt w hnt (by omega)) (Nat.min_le_left _ _)
    have hlen : (multiway_merge_base stable mwma comp
        (chunkRow (filterNe seqs) ((multiway_merge_exact_splitting stable comp
          (filterNe seqs) size (totalLen (filterNe seqs)) nt).getD w []))
        (workerLen size ((multiway_merge_exact_splitting stable comp (filterNe seqs)
          size (totalLen (filterNe seqs)) nt).getD w [])).toNat).length
        ≤ (workerLen size ((multiway_merge_exact_splitting stable comp (filterNe seqs)
          size (totalLen (filterNe seqs)) nt).getD w [])).toNat := by
      rw [multiway_merge_base]
      exact List.length_take_le _ _
    have hcap : (workerLen size ((multiway_merge_exact_splitting stable comp
        (filterNe seqs) size (totalLen (filterNe seqs)) nt).getD w [])).toNat
        ≤ size - targetPos ((multiway_merge_exact_splitting stable comp (filterNe seqs)
          size (totalLen (filterNe seqs)) nt).getD w []) := by
      rw [workerLen]
      omega
    omega

theorem c6_witness :
    (1 : Nat) ≤ 2 ∧ (1 : Nat) < 2
    ∧ (targetPos ((multiway_merge_exact_splitting false (fun a b : Nat => decide (a < b))
          (filterNe [[1, 4, 7], [2, 5, 8], [3, 6, 9]]) 5
          (totalLen (filterNe [[1, 4, 7], [2, 5, 8], [3, 6, 9]])) 2).getD 1 [])
        = ((List.range (filterNe ([[1, 4, 7], [2, 5, 8], [3, 6, 9]] : List (List Nat))).length).map
            (fun s => (((multiway_merge_exact_splitting false (fun a b : Nat => decide (a < b))
              (filterNe [[1, 4, 7], [2, 5, 8], [3, 6, 9]]) 5
              (totalLen (filterNe [[1, 4, 7], [2, 5, 8], [3, 6, 9]])) 2).getD 1 []).getD
                s (0, 0)).1)).sum
      ∧ workerLen 5 ((multiway_merge_exact_splitting false (fun a b : Nat => decide (a < b))
          (filterNe [[1, 4, 7], [2, 5, 8], [3, 6, 9]]) 5
          (totalLen (filterNe [[1, 4, 7], [2, 5, 8], [3, 6, 9]])) 2).getD 1 [])
        = min (localSizeOf ((multiway_merge_exact_splitting false
            (fun a b : Nat => decide (a < b)) (filterNe [[1, 4, 7], [2, 5, 8], [3, 6, 9]]) 5
            (totalLen (filterNe [[1, 4, 7], [2, 5, 8], [3, 6, 9]])) 2).getD 1 []) : Int)
            ((5 : Int) - (targetPos ((multiway_merge_exact_splitting false
              (fun a b : Nat => decide (a < b)) (filterNe [[1, 4, 7], [2, 5, 8], [3, 6, 9]]) 5
              (totalLen (filterNe [[1, 4, 7], [2, 5, 8], [3, 6, 9]])) 2).getD 1 []) : Int))
      ∧ targetPos ((multiway_merge_exact_splitting false (fun a b : Nat => decide (a < b))
          (filterNe [[1, 4, 7], [2, 5, 8], [3, 6, 9]]) 5
          (totalLen (filterNe [[1, 4, 7], [2, 5, 8], [3, 6, 9]])) 2).getD 1 [])
        + (multiway_merge_base false MultiwayMergeAlgorithm.MWMA_ALGORITHM_DEFAULT
            (fun a b : Nat => decide (a < b))
            (chunkRow (filterNe [[1, 4, 7], [2, 5, 8], [3, 6, 9]])
              ((multiway_merge_exact_splitting false (fun a b : Nat => decide (a < b))
                (filterNe [[1, 4, 7], [2, 5, 8], [3, 6, 9]]) 5
                (totalLen (filterNe [[1, 4, 7], [2, 5, 8], [3, 6, 9]])) 2).getD 1 []))
            (workerLen 5 ((multiway_merge_exact_splitting false
              (fun a b : Nat => decide (a < b)) (filterNe [[1, 4, 7], [2, 5, 8], [3, 6, 9]]) 5
              (totalLen (filterNe [[1, 4, 7], [2, 5, 8], [3, 6, 9]])) 2).getD 1 [])).toNat).length
        ≤ 5) :=
  ⟨by decide, by decide,
   c6_worker_offset_and_cap false MultiwayMergeAlgorithm.MWMA_ALGORITHM_DEFAULT
     (fun a b : Nat => decide (a < b)) [[1, 4, 7], [2, 5, 8], [3, 6, 9]] 5 2 1
     (by decide) (by decide)⟩

/-- C8: the merge is deterministic: re-running with identical arguments gives
the identical result, and for fixed inputs any two thread counts between 1 and
total_size give the same buffer contents, final cursors, and return value. -/
theorem c8_deterministic {α : Type} (stable : Bool) {comp : α → α → Bool}
    (hswo : IsStrictWeakOrder comp) (seqs : List (List α)) (target : List α)
    (size : Nat) (mwma : MultiwayMergeAlgorithm)
    (mwmsa : MultiwayMergeSplittingAlgorithm) (nt1 nt2 : Nat)
    (h11 : 1 ≤ nt1) (h12 : nt1 ≤ totalLen (filterNe seqs))
    (h21 : 1 ≤ nt2) (h22 : nt2 ≤ totalLen (filterNe seqs)) :
    (parallel_multiway_merge_base stable comp seqs target size mwma mwmsa nt1
        = parallel_multiway_merge_base stable comp seqs target size mwma mwmsa nt1)
    ∧ parallel_multiway_merge_base stable comp seqs target size mwma mwmsa nt1
        = parallel_multiway_merge_base stable comp seqs target size mwma mwmsa nt2 := by
  refine ⟨rfl, ?_⟩
  have htot : totalLen (filterNe seqs) ≠ 0 := by omega
  have hc1 : 1 ≤ clampThreads nt1 (totalLen (filterNe seqs)) := by
    rw [clampThreads]
    split <;> omega
  have hc2 : 1 ≤ clampThreads nt2 (totalLen (filterNe seqs)) := by
    rw [clampThreads]
    split <;> omega
  rw [base_eq_some stable hswo seqs target size mwma mwmsa htot h11,
      base_eq_some stable hswo seqs target size mwma mwmsa htot h21]
  have hs : ∀ k,
      (((multiway_merge_exact_splitting stable comp (filterNe seqs) size
          (totalLen (filterNe seqs)) (clampThreads nt1 (totalLen (filterNe seqs)))).getD
          (clampThreads nt1 (totalLen (filterNe seqs)) - 1) []).getD k (0, 0)).2
      = (((multiway_merge_exact_splitting stable comp (filterNe seqs) size
          (totalLen (filterNe seqs)) (clampThreads nt2 (totalLen (filterNe seqs)))).getD
          (clampThreads nt2 (totalLen (filterNe seqs)) - 1) []).getD k (0, 0)).2 := by
    intro k
    rw [exact_last_row_snd stable comp (filterNe seqs) size _ k hc1,
        exact_last_row_snd stable comp (filterNe seqs) size _ k hc2]
  rw [reconcileSeqs_congr _ _ hs seqs 0]

theorem c8_witness :
    IsStrictWeakOrder (fun a b : Nat => decide (a < b))
    ∧ (1 : Nat) ≤ 1 ∧ 1 ≤ totalLen (filterNe ([[1, 4, 7], [2, 5, 8], [3, 6, 9]] : List (List Nat)))
    ∧ (1 : Nat) ≤ 2 ∧ 2 ≤ totalLen (filterNe ([[1, 4, 7], [2, 5, 8], [3, 6, 9]] : List (List Nat)))
    ∧ ((parallel_multiway_merge_base false (fun a b : Nat => decide (a < b))
          [[1, 4, 7], [2, 5, 8], [3, 6, 9]] [0, 0, 0, 0, 0] 5
          MultiwayMergeAlgorithm.MWMA_ALGORITHM_DEFAULT MWMSA_DEFAULT 1
        = parallel_multiway_merge_base false (fun a b : Nat => decide (a < b))
          [[1, 4, 7], [2, 5, 8], [3, 6, 9]] [0, 0, 0, 0, 0] 5
          MultiwayMergeAlgorithm.MWMA_ALGORITHM_DEFAULT MWMSA_DEFAULT 1)
      ∧ parallel_multiway_merge_base false (fun a b : Nat => decide (a < b))
          [[1, 4, 7], [2, 5, 8], [3, 6, 9]] [0, 0, 0, 0, 0] 5
          MultiwayMergeAlgorithm.MWMA_ALGORITHM_DEFAULT MWMSA_DEFAULT 1
        = parallel_multiway_merge_base false (fun a b : Nat => decide (a < b))
          [[1, 4, 7], [2, 5, 8], [3, 6, 9]] [0, 0, 0, 0, 0] 5
          MultiwayMergeAlgorithm.MWMA_ALGORITHM_DEFAULT MWMSA_DEFAULT 2) :=
  ⟨natLtB_swo, by decide, by decide, by decide, by decide,
   c8_deterministic false natLtB_swo [[1, 4, 7], [2, 5, 8], [3, 6, 9]]
     [0, 0, 0, 0, 0] 5 MultiwayMergeAlgorithm.MWMA_ALGORITHM_DEFAULT MWMSA_DEFAULT
     1 2 (by decide) (by decide) (by decide) (by decide)⟩

/-- C9: calling with num_threads = 0 and non-empty input is outside the
function's precondition: the clamp keeps zero workers, the chunk table has
zero rows, and the reconciler's access to chunks[num_threads - 1] is out of
bounds, so the total embedding reaches its error branch (`none`). -/
theorem c9_zero_threads_oob {α : Type} (stable : Bool) (comp : α → α → Bool)
    (seqs : List (List α)) (target : List α) (size : Nat)
    (mwma : MultiwayMergeAlgorithm) (mwmsa : MultiwayMergeSplittingAlgorithm)
    (htot : totalLen (filterNe seqs) ≠ 0) :
    parallel_multiway_merge_base stable comp seqs target size mwma mwmsa 0 = none := by
  have hcond := base_cond_false htot
  simp only [parallel_multiway_merge_base]
  rw [if_neg hcond, if_pos (by rw [clampThreads, if_neg (by omega)])]

theorem c9_witness :
    totalLen (filterNe ([[1, 2, 3]] : List (List Nat))) ≠ 0
    ∧ parallel_multiway_merge_base false (fun a b : Nat => decide (a < b))
        [[1, 2, 3]] [0, 0, 0] 3 MultiwayMergeAlgorithm.MWMA_ALGORITHM_DEFAULT
        MWMSA_DEFAULT 0 = none :=
  ⟨by decide,
   c9_zero_threads_oob false (fun a b : Nat => decide (a < b)) [[1, 2, 3]] [0, 0, 0] 3
     MultiwayMergeAlgorithm.MWMA_ALGORITHM_DEFAULT MWMSA_DEFAULT (by decide)⟩

/-- C10: the public frontends forward all parameters unchanged to
parallel_multiway_merge_base, parallel_multiway_merge with the Stable flag
false and stable_parallel_multiway_merge with the Stable flag true, and
differ in no other way. -/
theorem c10_frontends_forward {α : Type} (comp : α → α → Bool)
    (seqs : List (List α)) (target : List α) (size : Nat)
    (mwma : MultiwayMergeAlgorithm) (mwmsa : MultiwayMergeSplittingAlgorithm)
    (num_threads : Nat) :
    parallel_multiway_merge comp seqs target size mwma mwmsa num_threads
        = parallel_multiway_merge_base false comp seqs target size mwma mwmsa num_threads
    ∧ stable_parallel_multiway_merge comp seqs target size mwma mwmsa num_threads
        = parallel_multiway_merge_base true comp seqs target size mwma mwmsa num_threads :=
  ⟨rfl, rfl⟩

/-- C5: after a successful call with total_size > 0, every sequence that was
empty at entry is unmodified; every non-empty sequence has its start advanced
to the end offset of the last worker's chunk for that sequence, and the
number of consumed elements (new_start - old_start) equals the number of
elements from that sequence appearing in the merged output, as determined by
provenance tags. -/
theorem c5_cursor_advance {α : Type} (stable : Bool) {comp : α → α → Bool}
    (hswo : IsStrictWeakOrder comp) (seqs : List (List α)) (target : List α)
    (size : Nat) (mwma : MultiwayMergeAlgorithm)
    (mwmsa : MultiwayMergeSplittingAlgorithm) (num_threads : Nat)
    (res : MergeResult α) (htot : totalLen (filterNe seqs) ≠ 0)
    (hnt : 1 ≤ num_threads)
    (hres : parallel_multiway_merge_base stable comp seqs target size mwma mwmsa
      num_threads = some res) (s : Nat) :
    (seqs.getD s [] = [] → res.seqs.getD s [] = seqs.getD s [])
    ∧ (seqs.getD s [] ≠ [] →
        res.seqs.getD s []
          = (seqs.getD s []).drop
              (((multiway_merge_exact_splitting stable comp (filterNe seqs) size
                    (totalLen (filterNe seqs))
                    (clampThreads num_threads (totalLen (filterNe seqs)))).getD
                  (clampThreads num_threads (totalLen (filterNe seqs)) - 1) []).getD
                (neIdx seqs s) (0, 0)).2
        ∧ (seqs.getD s []).length - (res.seqs.getD s []).length
            = contributedCount comp seqs (min size (totalLen (filterNe seqs))) s) := by
  have hclamp : 1 ≤ clampThreads num_threads (totalLen (filterNe seqs)) := by
    rw [clampThreads]
    split <;> omega
  have hC := base_eq_some stable hswo seqs target size mwma mwmsa htot hnt
  rw [hres] at hC
  have hresC := Option.some.inj hC
  have hseqs : res.seqs = reconcileSeqs
      ((multiway_merge_exact_splitting stable comp (filterNe seqs) size
          (totalLen (filterNe seqs))
          (clampThreads num_threads (totalLen (filterNe seqs)))).getD
        (clampThreads num_threads (totalLen (filterNe seqs)) - 1) []) seqs 0 := by
    rw [hresC]
  constructor
  · intro hemp
    rw [hseqs, reconcileSeqs_getD, if_pos (by rw [hemp]; rfl)]
  · intro hne
    have hgetD : res.seqs.getD s []
        = (seqs.getD s []).drop
            (((multiway_merge_exact_splitting stable comp (filterNe seqs) size
                  (totalLen (filterNe seqs))
                  (clampThreads num_threads (totalLen (filterNe seqs)))).getD
                (clampThreads num_threads (totalLen (filterNe seqs)) - 1) []).getD
              (neIdx seqs s) (0, 0)).2 := by
      rw [hseqs, reconcileSeqs_getD,
        if_neg (by simpa [List.isEmpty_iff] using hne), Nat.zero_add]
    refine ⟨hgetD, ?_⟩
    have hk0 : neIdx seqs s < (filterNe seqs).length := neIdx_lt_filterNe_length seqs s hne
    have hsnd := exact_last_row_snd stable comp (filterNe seqs) size
      (clampThreads num_threads (totalLen (filterNe seqs))) (neIdx seqs s) hclamp
    rw [if_pos hk0] at hsnd
    have hVs := filterNe_getD_neIdx seqs s hne
    have hcle : consumedCount comp (filterNe seqs)
        (min size (totalLen (filterNe seqs))) (neIdx seqs s)
        ≤ (seqs.getD s []).length := by
      have h := consumedCount_le_length comp (filterNe seqs)
        (min size (totalLen (filterNe seqs))) (neIdx seqs s)
      rwa [hVs] at h
    have hA : ∀ p ∈ (filterNe (tagFrom seqs 0)).getD (neIdx seqs s) [], p.2 = s := by
      intro p hp
      rw [filterNe_tagFrom_getD seqs 0 s hne] at hp
      obtain ⟨x, _, rfl⟩ := List.mem_map.mp hp
      simp
    have hB : ∀ k, k ≠ neIdx seqs s →
        ∀ p ∈ (filterNe (tagFrom seqs 0)).getD k [], p.2 ≠ s := by
      intro k hk p hp hps
      obtain ⟨x, hx⟩ : ∃ x, x ∈ seqs.getD s [] := by
        cases hl : seqs.getD s [] with
        | nil => exact absurd hl hne
        | cons y ys => exact ⟨y, List.mem_cons_self _ _⟩
      have hq : (x, s) ∈ (filterNe (tagFrom seqs 0)).getD (neIdx seqs s) [] := by
        rw [filterNe_tagFrom_getD seqs 0 s hne]
        exact List.mem_map.mpr ⟨x, hx, by simp⟩
      rcases Nat.lt_or_ge k (neIdx seqs s) with hlt | hge
      · have := filterNe_tagFrom_inv2 seqs 0 k (neIdx seqs s) p (x, s) hlt hp hq
        omega
      · have hgt : neIdx seqs s < k := by omega
        have := filterNe_tagFrom_inv2 seqs 0 (neIdx seqs s) k (x, s) p hgt hq hp
        omega
    have hcontrib : contributedCount comp seqs
        (min size (totalLen (filterNe seqs))) s
        = consumedCount comp (filterNe seqs)
            (min size (totalLen (filterNe seqs))) (neIdx seqs s) := by
      rw [contributedCount, tagSeqs,
        ← kwayMerge_filterNe (liftComp comp) (tagFrom seqs 0)]
      rw [countP_take_kwayMerge (liftComp comp) s
        (min size (totalLen (filterNe seqs))) (filterNe (tagFrom seqs 0))
        (neIdx seqs s) hA hB]
      have hmap := consumedCount_map comp Prod.fst (filterNe (tagFrom seqs 0))
        (min size (totalLen (filterNe seqs))) (neIdx seqs s)
      rw [filterNe_tagFrom_map_fst seqs 0] at hmap
      exact hmap.symm
    rw [hgetD, hsnd, List.length_drop, hcontrib]
    omega

theorem c5_witness :
    IsStrictWeakOrder (fun a b : Nat => decide (a < b))
    ∧ totalLen (filterNe ([[1, 4, 7], [2, 5, 8], [3, 6, 9]] : List (List Nat))) ≠ 0
    ∧ (1 : Nat) ≤ 2
    ∧ parallel_multiway_merge_base false (fun a b : Nat => decide (a < b))
        [[1, 4, 7], [2, 5, 8], [3, 6, 9]] [0, 0, 0, 0, 0] 5
        MultiwayMergeAlgorithm.MWMA_ALGORITHM_DEFAULT MWMSA_DEFAULT 2
        = some ⟨[1, 2, 3, 4, 5], [[7], [8], [6, 9]], 5⟩
    ∧ (([[1, 4, 7], [2, 5, 8], [3, 6, 9]] : List (List Nat)).getD 2 [] ≠ []
        → (MergeResult.seqs ⟨[1, 2, 3, 4, 5], [[7], [8], [6, 9]], 5⟩).getD 2 []
            = (([[1, 4, 7], [2, 5, 8], [3, 6, 9]] : List (List Nat)).getD 2 []).drop
                (((multiway_merge_exact_splitting false (fun a b : Nat => decide (a < b))
                      (filterNe [[1, 4, 7], [2, 5, 8], [3, 6, 9]]) 5
                      (totalLen (filterNe [[1, 4, 7], [2, 5, 8], [3, 6, 9]]))
                      (clampThreads 2 (totalLen (filterNe [[1, 4, 7], [2, 5, 8], [3, 6, 9]])))).getD
                    (clampThreads 2 (totalLen (filterNe [[1, 4, 7], [2, 5, 8], [3, 6, 9]])) - 1)
                    []).getD (neIdx [[1, 4, 7], [2, 5, 8], [3, 6, 9]] 2) (0, 0)).2
          ∧ (([[1, 4, 7], [2, 5, 8], [3, 6, 9]] : List (List Nat)).getD 2 []).length
              - ((MergeResult.seqs ⟨[1, 2, 3, 4, 5], [[7], [8], [6, 9]], 5⟩).getD 2 []).length
            = contributedCount (fun a b : Nat => decide (a < b))
                [[1, 4, 7], [2, 5, 8], [3, 6, 9]]
                (min 5 (totalLen (filterNe [[1, 4, 7], [2, 5, 8], [3, 6, 9]]))) 2) :=
  ⟨natLtB_swo, by decide, by decide, by decide,
   (c5_cursor_advance false natLtB_swo [[1, 4, 7], [2, 5, 8], [3, 6, 9]]
     [0, 0, 0, 0, 0] 5 MultiwayMergeAlgorithm.MWMA_ALGORITHM_DEFAULT MWMSA_DEFAULT 2
     ⟨[1, 2, 3, 4, 5], [[7], [8], [6, 9]], 5⟩ (by decide) (by decide) (by decide) 2).2⟩

/-- C7: in the stable variant, when two elements of the merged output drawn
from different input sequences compare equal under the comparator, the
element from the lower-indexed sequence appears first; provenance is tracked
by tagging every element with its sequence index and comparing keys only. -/
theorem c7_stable_tie_break {α : Type} {comp : α → α → Bool}
    (hswo : IsStrictWeakOrder comp) (seqs : List (List α))
    (target : List (α × Nat)) (size : Nat) (mwma : MultiwayMergeAlgorithm)
    (mwmsa : MultiwayMergeSplittingAlgorithm) (num_threads : Nat)
    (res : MergeResult (α × Nat))
    (hsorted : ∀ l ∈ seqs, sortedAsc comp l) (hnt : 1 ≤ num_threads)
    (htot : totalLen (filterNe (tagSeqs seqs)) ≠ 0)
    (hres : stable_parallel_multiway_merge (liftComp comp) (tagSeqs seqs) target
      size mwma mwmsa num_threads = some res)
    (i j : Nat) (d : α × Nat) (hij : i < j)
    (hj : j < min size (totalLen (filterNe (tagSeqs seqs))))
    (heq1 : comp (res.buffer.getD i d).1 (res.buffer.getD j d).1 = false)
    (heq2 : comp (res.buffer.getD j d).1 (res.buffer.getD i d).1 = false)
    (hne : (res.buffer.getD i d).2 ≠ (res.buffer.getD j d).2) :
    (res.buffer.getD i d).2 < (res.buffer.getD j d).2 := by
  have hC := base_eq_some true (liftComp_swo hswo) (tagSeqs seqs) target size
    mwma mwmsa htot hnt
  rw [stable_parallel_multiway_merge] at hres
  rw [hres] at hC
  have hresC := Option.some.inj hC
  have hMlen : (kwayMerge (liftComp comp) (filterNe (tagSeqs seqs))).length
      = totalLen (filterNe (tagSeqs seqs)) := length_kwayMerge _ _
  have hbuf : ∀ k, k < min size (totalLen (filterNe (tagSeqs seqs))) →
      res.buffer.getD k d
        = (kwayMerge (liftComp comp) (filterNe (tagSeqs seqs))).getD k d := by
    intro k hk
    rw [hresC]
    simp only
    rw [List.getD_append _ _ d k (by rw [List.length_take]; omega)]
    exact getD_take_lt _ _ k d hk
  rw [hbuf i (by omega), hbuf j hj] at heq1 heq2 hne
  rw [hbuf i (by omega), hbuf j hj]
  have hmin := Nat.min_le_right size (totalLen (filterNe (tagSeqs seqs)))
  have hle := kwayMerge_stable_tags hswo (totalLen (filterNe (tagSeqs seqs)))
    (filterNe (tagSeqs seqs)) (by rw [totalLen_filterNe])
    (filterNe_tagFrom_sorted seqs 0 hsorted)
    (filterNe_tagFrom_inv1 seqs 0)
    (filterNe_tagFrom_inv2 seqs 0)
    i j d hij (by omega) heq1 heq2
  omega

theorem c7_witness :
    IsStrictWeakOrder (fun a b : Nat => decide (a < b))
    ∧ (∀ l ∈ ([[1], [1]] : List (List Nat)), sortedAsc (fun a b : Nat => decide (a < b)) l)
    ∧ (1 : Nat) ≤ 1
    ∧ totalLen (filterNe (tagSeqs ([[1], [1]] : List (List Nat)))) ≠ 0
    ∧ stable_parallel_multiway_merge (liftComp (fun a b : Nat => decide (a < b)))
        (tagSeqs [[1], [1]]) [(0, 0), (0, 0)] 2
        MultiwayMergeAlgorithm.MWMA_ALGORITHM_DEFAULT MWMSA_DEFAULT 1
        = some ⟨[(1, 0), (1, 1)], [[], []], 2⟩
    ∧ (0 : Nat) < 1
    ∧ 1 < min 2 (totalLen (filterNe (tagSeqs ([[1], [1]] : List (List Nat)))))
    ∧ ((MergeResult.buffer ⟨[(1, 0), (1, 1)], [[], []], 2⟩).getD 0 (0, 0)).2
        < ((MergeResult.buffer ⟨[(1, 0), (1, 1)], [[], []], 2⟩).getD 1 (0, 0)).2 :=
  ⟨natLtB_swo, by simp [sortedAsc], by decide, by decide, by decide, by decide, by decide,
   c7_stable_tie_break natLtB_swo [[1], [1]] [(0, 0), (0, 0)] 2
     MultiwayMergeAlgorithm.MWMA_ALGORITHM_DEFAULT MWMSA_DEFAULT 1
     ⟨[(1, 0), (1, 1)], [[], []], 2⟩ (by simp [sortedAsc]) (by decide) (by decide)
     (by decide) 0 1 (0, 0) (by decide) (by decide) (by decide) (by decide) (by decide)⟩

end Tlx
